import Mathlib

/-!
# Pair-merging vocabulary induction of `bpe.cpp`

A shallow embedding of `src/bpe.cpp`: the global `alphabet`, `get_sequences`,
`convert_to_vector` and the `while (true)` loop of `main` (count, select,
break, record, mark, replace).

Conventions of the embedding:

* `std::vector<T>` is a `List T`; an index outside the vector is undefined
  behaviour in C++ and is shown here as `none` / `Outcome.fault`.
* `size_t` is a `Nat` below `2 ^ 64`; the only place where the code can leave
  that range is the loop bound `seq.size() - k + 1`, which is reduced modulo
  `2 ^ 64`, and the increment of a counter, reduced likewise.
* `int L` is a `Nat`.  It starts at `alphabet.size() + 1` and grows by one per
  round; each round allocates an `L × L` table of 8-byte counters, so the
  allocation fails long before `L` could leave the range of `int`.  Running out
  of memory is not part of the embedding.
* `std::unordered_map` is an association list with distinct keys; only lookup,
  size and `operator[]` are used by the code.
* `std::string` is a `String`, each `Char` of which stands for one `char`.
-/

namespace Bpe

/-- `typedef std::tuple<size_t, size_t> kmer;` -/
abbrev kmer := Nat × Nat

/-- The modulus of `size_t` arithmetic. -/
def SIZE_MOD : Nat := 2 ^ 64

/-- `std::unordered_map<std::string, int>`. -/
abbrev Alphabet := List (String × Int)

/-- The global `alphabet` of `bpe.cpp`. -/
def alphabet : Alphabet :=
  [("A", 1), ("C", 2), ("G", 3), ("T", 4), ("N", 5), ("~", 0)]

/-- `alphabet[key]`: `operator[]` of `std::unordered_map`, which returns the
mapped value and inserts a value-initialised entry (`0`) when the key is
absent. -/
def subscript (al : Alphabet) (key : String) : Int × Alphabet :=
  match al.lookup key with
  | some v => (v, al)
  | none => (0, al ++ [(key, 0)])

/-- Conversion of an `int` to `size_t` (done by `seq.push_back`). -/
def to_size_t (v : Int) : Nat := (v % (2 ^ 64 : Int)).toNat

/-- The body of the loop of `convert_to_vector`:
`seq.push_back(alphabet[std::string(1, x)])`, on the pair of `seq` and the
global `alphabet`. -/
def pushCode (acc : List Nat × Alphabet) (x : Char) : List Nat × Alphabet :=
  (acc.1 ++ [to_size_t (subscript acc.2 (String.singleton x)).1],
    (subscript acc.2 (String.singleton x)).2)

/-- `convert_to_vector`: one code per character of the dataset.  The global
`alphabet` is threaded through and returned with the sequence. -/
def convert_to_vector (al : Alphabet) (dataset : String) : List Nat × Alphabet :=
  dataset.data.foldl pushCode ([], al)

/-- `std::vector<std::vector<size_t>>`. -/
abbrev Table := List (List Nat)

/-- `std::vector<std::vector<size_t>> c(L, std::vector<size_t>(L, 0))`. -/
def mkTable (L : Nat) : Table := List.replicate L (List.replicate L 0)

/-- The value `c[i][j]` for an index inside the table (0 outside). -/
def cell (c : Table) (i j : Nat) : Nat := (c.getD i []).getD j 0

/-- `c[a][b]++`; `none` when `a` or `b` is outside the table. -/
def incr (c : Table) (a b : Nat) : Option Table :=
  match c.get? a with
  | none => none
  | some row =>
    match row.get? b with
    | none => none
    | some v => some (c.set a (row.set b ((v + 1) % SIZE_MOD)))

/-- The loop bound `seq.size() - k + 1` with `int k = 2`, in `size_t`
arithmetic: `(n - 2) mod 2^64`, then `+ 1 mod 2^64`. -/
def loopBound (n : Nat) : Nat := ((SIZE_MOD - 2 + n) % SIZE_MOD + 1) % SIZE_MOD

/-- The counting loop
`for (size_t i = 0; i < bound; i++) if (seq[i] && seq[i+1]) c[seq[i]][seq[i+1]]++;`
from index `i` on.  The first argument bounds the number of iterations left
(`bound - i` is enough); `&&` reads `seq[i+1]` only when `seq[i]` is not 0. -/
def countLoop (seq : List Nat) (bound : Nat) : Nat → Nat → Table → Option Table
  | 0, _, c => some c
  | fuel + 1, i, c =>
    if i < bound then
      match seq.get? i with
      | none => none
      | some a =>
        if a ≠ 0 then
          match seq.get? (i + 1) with
          | none => none
          | some b =>
            if b ≠ 0 then
              match incr c a b with
              | none => none
              | some c1 => countLoop seq bound fuel (i + 1) c1
            else countLoop seq bound fuel (i + 1) c
        else countLoop seq bound fuel (i + 1) c
    else some c

/-- The body `if (c[i][j] > max_count) { max_count = c[i][j]; rep = (i, j); }`
of the selection loops; the accumulator is `(max_count, rep)`. -/
def selectStep (c : Table) (i : Nat) (acc : Nat × kmer) (j : Nat) : Nat × kmer :=
  if cell c i j > acc.1 then (cell c i j, (i, j)) else acc

/-- The inner loop `for (size_t j = 1; j < c[i].size(); ++j)`. -/
def selectRow (c : Table) (acc : Nat × kmer) (i : Nat) : Nat × kmer :=
  (List.range' 1 ((c.getD i []).length - 1)).foldl (selectStep c i) acc

/-- The selection loops of `main` ("find max"), started with `max_count = 0`
and the value-initialised `kmer rep`, which is `(0, 0)`. -/
def select (c : Table) : Nat × kmer :=
  (List.range' 1 (c.length - 1)).foldl (selectRow c) (0, (0, 0))

/-- The marking loop
`for (size_t i = 0; i < bound; i++) if (seq[i] && seq[i+1]) if ((seq[i], seq[i+1]) == rep) to_replace[i] = true;`
from index `i` on. -/
def markLoop (seq : List Nat) (rep : kmer) (bound : Nat) :
    Nat → Nat → List Bool → Option (List Bool)
  | 0, _, tr => some tr
  | fuel + 1, i, tr =>
    if i < bound then
      match seq.get? i with
      | none => none
      | some a =>
        if a ≠ 0 then
          match seq.get? (i + 1) with
          | none => none
          | some b =>
            if b ≠ 0 then
              if (a, b) = rep then
                if i < tr.length then markLoop seq rep bound fuel (i + 1) (tr.set i true)
                else none
              else markLoop seq rep bound fuel (i + 1) tr
            else markLoop seq rep bound fuel (i + 1) tr
        else markLoop seq rep bound fuel (i + 1) tr
    else some tr

/-- The replace loop
`for (size_t i = 0; i < seq.size();) if (to_replace[i]) { new_seq.push_back(L); i += 2; } else { new_seq.push_back(seq[i]); i += 1; }`
from index `i` on, with `new_seq` as accumulator. -/
def replaceLoop (seq : List Nat) (tr : List Bool) (L : Nat) :
    Nat → Nat → List Nat → Option (List Nat)
  | 0, _, new_seq => some new_seq
  | fuel + 1, i, new_seq =>
    if i < seq.length then
      match tr.get? i with
      | none => none
      | some true => replaceLoop seq tr L fuel (i + 2) (new_seq ++ [L])
      | some false =>
        match seq.get? i with
        | none => none
        | some x => replaceLoop seq tr L fuel (i + 1) (new_seq ++ [x])
    else some new_seq

/-- The two passes of a round on the working sequence: `std::fill`, the marking
loop, then the replace loop.  Returns the marks and the new sequence. -/
def rewritePass (seq : List Nat) (rep : kmer) (L : Nat) (to_replace : List Bool) :
    Option (List Bool × List Nat) :=
  match markLoop seq rep (loopBound seq.length) (loopBound seq.length) 0
      (List.replicate to_replace.length false) with
  | none => none
  | some tr =>
    match replaceLoop seq tr L seq.length 0 [] with
    | none => none
    | some new_seq => some (tr, new_seq)

/-- `m[key] = v` on a `std::unordered_map`: the value of an existing key is
overwritten, a new key is added. -/
def assign {α β : Type} [DecidableEq α] (m : List (α × β)) (key : α) (v : β) : List (α × β) :=
  if m.any (fun e => e.1 = key) then
    m.map (fun e => if e.1 = key then (key, v) else e)
  else m ++ [(key, v)]

/-- The variables of `main` that live across rounds of the loop. -/
structure State where
  seq : List Nat
  merged : List kmer
  L : Nat
  tokens : List (Nat × kmer)
  rev_tokens : List (kmer × Nat)
  to_replace : List Bool
  deriving DecidableEq, Repr

/-- What one pass through the body of `while (true)` does: leave through
`break`, fall through to the next round, or make an out-of-bounds access. -/
inductive Outcome where
  | brk (s : State)
  | cont (s : State)
  | fault
  deriving DecidableEq, Repr

/-- One round of the `while (true)` loop of `main`. -/
def round (s : State) : Outcome :=
  match countLoop s.seq (loopBound s.seq.length) (loopBound s.seq.length) 0 (mkTable s.L) with
  | none => Outcome.fault
  | some c =>
    let tf := (select c).1
    let rep := (select c).2
    if tf = 1 then Outcome.brk s
    else
      match rewritePass s.seq rep s.L s.to_replace with
      | none => Outcome.fault
      | some r =>
        Outcome.cont
          { seq := r.2
            merged := s.merged ++ [rep]
            L := s.L + 1
            tokens := assign s.tokens s.L rep
            rev_tokens := assign s.rev_tokens rep s.L
            to_replace := r.1 }

/-- The loop of `main` for at most `n` rounds: `cont s` when `n` rounds were
completed without reaching `break`, `brk s` when `break` was reached. -/
def run : Nat → State → Outcome
  | 0, s => Outcome.cont s
  | n + 1, s =>
    match round s with
    | Outcome.cont s1 => run n s1
    | o => o

/-- The state of `main` on entry to the loop for an encoded sequence `seq0`
and a first value `L0` of `L`. -/
def start (seq0 : List Nat) (L0 : Nat) : State :=
  { seq := seq0
    merged := []
    L := L0
    tokens := []
    rev_tokens := []
    to_replace := List.replicate seq0.length false }

/-- The state of `main` on entry to the loop, for a given global alphabet and
assembled dataset: `seq = convert_to_vector(dataset)`, then
`L = alphabet.size() + 1` on the alphabet as the encoder left it. -/
def init (al : Alphabet) (dataset : String) : State :=
  start (convert_to_vector al dataset).1 ((convert_to_vector al dataset).2.length + 1)

/-- The single-pass replacement in the words of the specification: if the
next two symbols are `(a, b)` and both are non-zero, emit `L` and continue
after them; otherwise emit the next symbol and continue after it. -/
def greedy (a b L : Nat) : List Nat → List Nat
  | [] => []
  | [x] => [x]
  | x :: y :: rest =>
    if x = a ∧ y = b ∧ x ≠ 0 ∧ y ≠ 0 then L :: greedy a b L rest
    else x :: greedy a b L (y :: rest)

/-- Expansion of one id through the TokenTable, in the words of the
specification: a composite id is replaced by the expansions of its recorded
left and right ids, any other id stays.  The first argument bounds the depth. -/
def expandTok (tokens : List (Nat × kmer)) : Nat → Nat → List Nat
  | 0, x => [x]
  | fuel + 1, x =>
    match tokens.lookup x with
    | some (l, r) => expandTok tokens fuel l ++ expandTok tokens fuel r
    | none => [x]

/-- Expansion of a working sequence through the TokenTable. -/
def expand (tokens : List (Nat × kmer)) (fuel : Nat) (seq : List Nat) : List Nat :=
  (seq.map (expandTok tokens fuel)).flatten

/-- The number of positions `p` in `[0, N-2]` with `seq[p] = i`, `seq[p+1] = j`,
`i ≠ 0` and `j ≠ 0`, in the words of the specification. -/
def pairCount (seq : List Nat) (i j : Nat) : Nat :=
  ((List.range (seq.length - 1)).filter
    (fun p => decide (seq.getD p 0 = i ∧ seq.getD (p + 1) 0 = j ∧ i ≠ 0 ∧ j ≠ 0))).length

/-- The number `K` of non-sentinel symbols of an alphabet: the entries whose
code is not 0. -/
def nonSentinel (al : Alphabet) : Nat := (al.filter (fun e => decide (e.2 ≠ 0))).length

/-- The alphabet of the scenario of the specification, `~:0, A:1`. -/
def scenarioAlphabet : Alphabet := [("~", 0), ("A", 1)]

/-- The test of the marking loop at position `i`: both values are read, both
are non-zero and they are the pair `rep`. -/
def hit (seq : List Nat) (rep : kmer) (i : Nat) : Bool :=
  match seq[i]?, seq[i + 1]? with
  | some a, some b => decide (a ≠ 0) && decide (b ≠ 0) && decide ((a, b) = rep)
  | _, _ => false

/-- The positions below `p` that the specification counts for the pair
`(i, j)`. -/
def pairCountUpto (seq : List Nat) (i j p : Nat) : Nat :=
  ((List.range p).filter
    (fun q => decide (seq.getD q 0 = i ∧ seq.getD (q + 1) 0 = j ∧ i ≠ 0 ∧ j ≠ 0))).length

/-- A table of `L` rows of `L` counters. -/
def Square (c : Table) (L : Nat) : Prop := c.length = L ∧ ∀ i, i < L → (c.getD i []).length = L

/-- The cells that the selection loops visit: row and column index at least 1
and inside the table. -/
def Scanned (c : Table) (i j : Nat) : Prop :=
  1 ≤ i ∧ i < c.length ∧ 1 ≤ j ∧ j < (c.getD i []).length

/-- Row-major order: `(i1, j1)` comes before `(i, j)`. -/
def Before (i j i1 j1 : Nat) : Prop := i1 < i ∨ (i1 = i ∧ j1 < j)

/-- What the selection loops have established when they are about to visit
`(i, j)` with accumulator `(max_count, rep)`. -/
def SelInv (c : Table) (acc : Nat × kmer) (i j : Nat) : Prop :=
  (∀ i1 j1, Scanned c i1 j1 → Before i j i1 j1 → cell c i1 j1 ≤ acc.1) ∧
  (acc.1 = 0 → acc.2 = (0, 0)) ∧
  (0 < acc.1 → Scanned c acc.2.1 acc.2.2 ∧ cell c acc.2.1 acc.2.2 = acc.1 ∧
    ∀ i1 j1, Scanned c i1 j1 → Before acc.2.1 acc.2.2 i1 j1 → cell c i1 j1 < acc.1)

/-- A TokenTable whose keys lie in `[L0, L)` and whose recorded ids are smaller
than the id they are recorded for. -/
def TokensOk (tokens : List (Nat × kmer)) (L0 L : Nat) : Prop :=
  (∀ k, k < L0 → tokens.lookup k = none) ∧
  (∀ k, L ≤ k → tokens.lookup k = none) ∧
  (∀ k a b, tokens.lookup k = some (a, b) → a < k ∧ b < k)

/-- What holds of the variables of `main` at the start of every round of a
run that entered the loop with working sequence `seq0` and `L = L0`. -/
structure Inv (seq0 : List Nat) (L0 : Nat) (s : State) : Prop where
  len_le : s.seq.length ≤ seq0.length
  tr_len : s.to_replace.length = seq0.length
  lt_L : ∀ x ∈ s.seq, x < s.L
  L_eq : s.L = L0 + s.merged.length
  tok : TokensOk s.tokens L0 s.L
  keys : s.tokens.map Prod.fst = List.range' L0 s.merged.length
  vals : s.tokens.map Prod.snd = s.merged
  exp : ∀ fuel, s.L ≤ fuel → expand s.tokens fuel s.seq = seq0
  zeros : s.seq.count 0 = seq0.count 0
  nz : ∀ x ∈ s.seq, x ≠ 0 → ∀ y ∈ expandTok s.tokens s.L x, y ≠ 0

/-- A working sequence in which no two adjacent entries are both non-zero. -/
def NoPair (seq : List Nat) : Prop :=
  ∀ p, p < seq.length - 1 → seq.getD p 0 = 0 ∨ seq.getD (p + 1) 0 = 0

instance (seq : List Nat) : Decidable (NoPair seq) := by
  unfold NoPair
  infer_instance

/-- The part of the invariant that only concerns the allocation of ids: it
holds for every alphabet. -/
def IdsOk (L0 : Nat) (s : State) : Prop :=
  s.L = L0 + s.merged.length ∧
  s.tokens.map Prod.fst = List.range' L0 s.merged.length ∧
  s.tokens.map Prod.snd = s.merged

/-- The final state of `main` on the dataset `ACGTACGT~ACGTAC`, reached by
`break` in the fourth round. -/
def finalACGT : State :=
  { seq := [9, 9, 0, 9, 7]
    merged := [(1, 2), (3, 4), (7, 8)]
    L := 10
    tokens := [(7, 1, 2), (8, 3, 4), (9, 7, 8)]
    rev_tokens := [((1, 2), 7), ((3, 4), 8), ((7, 8), 9)]
    to_replace := [true, false, true, false, false, true, false, false, false, false,
      false, false, false, false, false] }

/-- The state after the first round on the scenario of the specification:
alphabet `~:0, A:1`, dataset `AAAA`. -/
def scenarioRound1 : State :=
  { seq := [3, 3]
    merged := [(1, 1)]
    L := 4
    tokens := [(3, 1, 1)]
    rev_tokens := [((1, 1), 3)]
    to_replace := [true, true, true, false] }

/-- A state from which every round finds no pair to count. -/
def Stuck (s : State) : Prop :=
  s.seq ≠ [] ∧ s.seq.length < 2 ^ 64 ∧ (∀ x ∈ s.seq, x < s.L) ∧
    s.seq.length ≤ s.to_replace.length ∧ NoPair s.seq

/-- The state after the first round on the dataset `AA~AA`. -/
def afterAA : State :=
  { seq := [7, 0, 7]
    merged := [(1, 1)]
    L := 8
    tokens := [(7, 1, 1)]
    rev_tokens := [((1, 1), 7)]
    to_replace := [true, false, false, true, false] }

/-- The state after the first round on the dataset `A`. -/
def afterA : State :=
  { seq := [1]
    merged := [(0, 0)]
    L := 8
    tokens := [(7, 0, 0)]
    rev_tokens := [((0, 0), 7)]
    to_replace := [false] }

/-- The state after two rounds on the dataset `AC~AC`. -/
def afterACAC : State :=
  { seq := [7, 0, 7]
    merged := [(1, 2), (0, 0)]
    L := 9
    tokens := [(7, 1, 2), (8, 0, 0)]
    rev_tokens := [((1, 2), 7), ((0, 0), 8)]
    to_replace := [false, false, false, false, false] }

/-- The state after two rounds on the dataset `AAA~AAA`. -/
def afterAAA2 : State :=
  { seq := [8, 0, 8]
    merged := [(1, 1), (7, 1)]
    L := 9
    tokens := [(7, 1, 1), (8, 7, 1)]
    rev_tokens := [((1, 1), 7), ((7, 1), 8)]
    to_replace := [true, false, false, true, false, false, false] }

/-- The state after three rounds on the dataset `AAA~AAA`. -/
def afterAAA3 : State :=
  { seq := [8, 0, 8]
    merged := [(1, 1), (7, 1), (0, 0)]
    L := 10
    tokens := [(7, 1, 1), (8, 7, 1), (9, 0, 0)]
    rev_tokens := [((1, 1), 7), ((7, 1), 8), ((0, 0), 9)]
    to_replace := [false, false, false, false, false, false, false] }

/-- A table with its largest count, 5, at `(1, 2)` and again at `(2, 1)`. -/
def exampleTable : Table := [[0, 0, 0], [0, 2, 5], [0, 5, 1]]

/-- The state after the first round on the dataset `AAAA`. -/
def afterAAAA : State :=
  { seq := [7, 7]
    merged := [(1, 1)]
    L := 8
    tokens := [(7, 1, 1)]
    rev_tokens := [((1, 1), 7)]
    to_replace := [true, true, true, false] }

/-- The value `tf` of a round: `max_count` after the counting and selection
loops on the state at the start of the round; `none` when the counting loop
makes an out-of-bounds access. -/
def maxCount (s : State) : Option Nat :=
  (countLoop s.seq (loopBound s.seq.length) (loopBound s.seq.length) 0 (mkTable s.L)).map
    (fun c => (select c).1)

/-- The pair `rep` of a round after the selection loops; `none` when the
counting loop makes an out-of-bounds access. -/
def selected (s : State) : Option kmer :=
  (countLoop s.seq (loopBound s.seq.length) (loopBound s.seq.length) 0 (mkTable s.L)).map
    (fun c => (select c).2)

/-- The alphabet code of a character in the words of the specification: the
code mapped to the character when it is a key of the alphabet, and 0, the
sentinel code, when it is not. -/
def codeOf (al : Alphabet) (ch : Char) : Nat :=
  match al.lookup (String.singleton ch) with
  | some v => to_size_t v
  | none => 0

/-- `line.find(c)` on a `std::string`: the position of the first `c`, `none`
for `std::string::npos`. -/
def find (c : Char) : List Char → Option Nat
  | [] => none
  | x :: xs => if x = c then some 0 else (find c xs).map (fun p => p + 1)

/-- The inner loop of `get_sequences`,
`while ((pos = line.find('\t')) != npos) { d.push_back(line.substr(0, pos)); line.erase(0, pos + 1); }`,
on the current `line` and `d`; returns `d`.  The first argument bounds the
number of iterations left (every iteration erases at least one character). -/
def splitLoop : Nat → List Char → List String → List String
  | 0, _, d => d
  | fuel + 1, line, d =>
    match find '\t' line with
    | none => d
    | some pos => splitLoop fuel (line.drop (pos + 1)) (d ++ [String.mk (line.take pos)])

/-- The body of the `getline` loop of `get_sequences` for one line: the string
`d[14]` that is pushed to `seqs`, `none` when index 14 is outside `d`. -/
def fieldOfLine (line : String) : Option String :=
  (splitLoop (line.length + 1) line.data []).get? 14

/-- The `getline` loop of `get_sequences` over the lines of the file. -/
def readLines : List String → List String → Option (List String)
  | [], seqs => some seqs
  | line :: lines, seqs =>
    match fieldOfLine line with
    | none => none
    | some f => readLines lines (seqs ++ [f])

/-- `get_sequences`: `file` is `none` when the file cannot be opened, else its
lines; the result is `seqs` after the call, `none` after an out-of-bounds
access. -/
def get_sequences (file : Option (List String)) (seqs : List String) : Option (List String) :=
  match file with
  | none => some seqs
  | some lines => readLines lines seqs

/-- The tab-separated fields of a line, in the words of the specification: a
line with `n` tab characters has `n + 1` fields, the texts between them. -/
def tabFields : List Char → List (List Char)
  | [] => [[]]
  | c :: rest =>
    if c = '\t' then [] :: tabFields rest
    else
      match tabFields rest with
      | [] => [[c]]
      | f :: fs => (c :: f) :: fs

/-- A line of 15 tab-separated fields whose field 14 is `ACGT`. -/
def line15 : String := "p\t1\th\t2\t3\t4\t5\t6\t7\t8\tc\t9\t10\t11\tACGT"

/-- The line `line15` with a 16th field. -/
def line16 : String := "p\t1\th\t2\t3\t4\t5\t6\t7\t8\tc\t9\t10\t11\tACGT\t4"

/-- The state after the first round on the dataset `AAA~AAA`. -/
def afterAAA1 : State :=
  { seq := [7, 1, 0, 7, 1]
    merged := [(1, 1)]
    L := 8
    tokens := [(7, 1, 1)]
    rev_tokens := [((1, 1), 7)]
    to_replace := [true, true, false, false, true, true, false] }

/-- The contribution of one pair of adjacent values `(x, y)` to the count of
the pair `(i, j)`. -/
def adj (x y i j : Nat) : Nat := if x = i ∧ y = j ∧ i ≠ 0 ∧ j ≠ 0 then 1 else 0

/-- The contribution of the value `x` and the first value of `l`, if any, to
the count of the pair `(i, j)`. -/
def adjHead (x : Nat) (l : List Nat) (i j : Nat) : Nat :=
  match l with
  | [] => 0
  | y :: _ => adj x y i j

/-- The number of sentinel symbols of an alphabet: the entries whose code is
0.  The alphabets of the data model have exactly one. -/
def sentinels (al : Alphabet) : Nat := (al.filter (fun e => decide (e.2 = 0))).length

/-! ## The loop bound -/

theorem loopBound_zero : loopBound 0 = 2 ^ 64 - 1 := by
  simp [loopBound, SIZE_MOD]

theorem loopBound_pos (n : Nat) (h0 : 0 < n) (hn : n < 2 ^ 64) : loopBound n = n - 1 := by
  unfold loopBound SIZE_MOD
  omega

/-! ## The marking pass -/

theorem markLoop_spec (seq : List Nat) (rep : kmer) (bound : Nat)
    (hb : bound + 1 ≤ seq.length) :
    ∀ (fuel i : Nat) (tr : List Bool), bound ≤ tr.length → bound - i ≤ fuel →
      ∃ tr1, markLoop seq rep bound fuel i tr = some tr1 ∧ tr1.length = tr.length ∧
        ∀ j, tr1[j]? =
          if i ≤ j ∧ j < bound ∧ hit seq rep j = true then some true else tr[j]? := by
  intro fuel
  induction fuel with
  | zero =>
    intro i tr _ hf
    refine ⟨tr, rfl, rfl, ?_⟩
    intro j
    have : ¬ (i ≤ j ∧ j < bound ∧ hit seq rep j = true) := by omega
    simp [this]
  | succ fuel ih =>
    intro i tr htr hf
    unfold markLoop
    by_cases hi : i < bound
    · have h1 : i < seq.length := by omega
      have h2 : i + 1 < seq.length := by omega
      simp only [hi, if_true, List.get?_eq_getElem?, List.getElem?_eq_getElem h1,
        List.getElem?_eq_getElem h2]
      have hhit : hit seq rep i =
          (decide (seq[i] ≠ 0) && decide (seq[i + 1] ≠ 0) && decide ((seq[i], seq[i + 1]) = rep)) := by
        simp [hit, List.getElem?_eq_getElem h1, List.getElem?_eq_getElem h2]
      by_cases ha : seq[i] ≠ 0
      · by_cases hbn : seq[i + 1] ≠ 0
        · by_cases hr : (seq[i], seq[i + 1]) = rep
          · have hil : i < tr.length := by omega
            rw [if_pos ha, if_pos hbn, if_pos hr, if_pos hil]
            obtain ⟨tr1, e1, l1, g1⟩ := ih (i + 1) (tr.set i true) (by simpa using htr) (by omega)
            refine ⟨tr1, e1, by simpa using l1, ?_⟩
            intro j
            rw [g1 j, List.getElem?_set]
            have hh : hit seq rep i = true := by simp [hhit, ha, hbn, hr]
            by_cases hij : i = j
            · subst hij
              simp [hi, hh, hil]
            · have : (i + 1 ≤ j) ↔ (i ≤ j) := by omega
              simp [hij, this]
          · rw [if_pos ha, if_pos hbn, if_neg hr]
            obtain ⟨tr1, e1, l1, g1⟩ := ih (i + 1) tr htr (by omega)
            refine ⟨tr1, e1, l1, ?_⟩
            intro j
            rw [g1 j]
            have hh : hit seq rep i = false := by simp [hhit, hr]
            by_cases hij : i = j
            · subst hij
              simp [hh]
            · have : (i + 1 ≤ j) ↔ (i ≤ j) := by omega
              simp [this]
        · rw [if_pos ha, if_neg hbn]
          obtain ⟨tr1, e1, l1, g1⟩ := ih (i + 1) tr htr (by omega)
          refine ⟨tr1, e1, l1, ?_⟩
          intro j
          rw [g1 j]
          have hh : hit seq rep i = false := by simp [hhit, hbn]
          by_cases hij : i = j
          · subst hij
            simp [hh]
          · have : (i + 1 ≤ j) ↔ (i ≤ j) := by omega
            simp [this]
      · rw [if_neg ha]
        obtain ⟨tr1, e1, l1, g1⟩ := ih (i + 1) tr htr (by omega)
        refine ⟨tr1, e1, l1, ?_⟩
        intro j
        rw [g1 j]
        have hh : hit seq rep i = false := by simp [hhit, ha]
        by_cases hij : i = j
        · subst hij
          simp [hh]
        · have : (i + 1 ≤ j) ↔ (i ≤ j) := by omega
          simp [this]
    · simp only [hi, if_false]
      refine ⟨tr, rfl, rfl, ?_⟩
      intro j
      have : ¬ (i ≤ j ∧ j < bound ∧ hit seq rep j = true) := by omega
      simp [this]

theorem hit_lt (seq : List Nat) (rep : kmer) (j : Nat) (h : hit seq rep j = true) :
    j + 1 < seq.length := by
  unfold hit at h
  by_contra hc
  have : seq[j + 1]? = none := List.getElem?_eq_none (by omega)
  rw [this] at h
  cases hs : seq[j]? <;> simp [hs] at h

theorem hit_iff (seq : List Nat) (a b : Nat) (j : Nat) :
    hit seq (a, b) j = true ↔
      seq[j]? = some a ∧ seq[j + 1]? = some b ∧ a ≠ 0 ∧ b ≠ 0 := by
  unfold hit
  cases h1 : seq[j]? with
  | none => simp
  | some x =>
    cases h2 : seq[j + 1]? with
    | none => simp
    | some y =>
      simp only [Bool.and_eq_true, decide_eq_true_eq, Prod.mk.injEq, Option.some.injEq]
      constructor
      · rintro ⟨⟨hx, hy⟩, rfl, rfl⟩
        exact ⟨rfl, rfl, hx, hy⟩
      · rintro ⟨rfl, rfl, hx, hy⟩
        exact ⟨⟨hx, hy⟩, rfl, rfl⟩

/-- The marking pass of a round on a non-empty sequence: it makes no
out-of-bounds access and marks exactly the positions that pass the test. -/
theorem marks_spec (seq : List Nat) (rep : kmer) (to_replace : List Bool)
    (h0 : 0 < seq.length) (hn : seq.length < 2 ^ 64) (hl : seq.length ≤ to_replace.length) :
    ∃ tr1, markLoop seq rep (loopBound seq.length) (loopBound seq.length) 0
        (List.replicate to_replace.length false) = some tr1 ∧
      tr1.length = to_replace.length ∧ ∀ j, j < tr1.length → tr1[j]? = some (hit seq rep j) := by
  rw [loopBound_pos _ h0 hn]
  obtain ⟨tr1, e1, l1, g1⟩ := markLoop_spec seq rep (seq.length - 1) (by omega)
    (seq.length - 1) 0 (List.replicate to_replace.length false) (by simp; omega) (by omega)
  refine ⟨tr1, e1, by simpa using l1, ?_⟩
  intro j hj
  rw [g1 j]
  have hj2 : j < to_replace.length := by simpa [l1] using hj
  by_cases hh : hit seq rep j = true
  · have := hit_lt seq rep j hh
    have hc : 0 ≤ j ∧ j < seq.length - 1 ∧ hit seq rep j = true := ⟨by omega, by omega, hh⟩
    rw [if_pos hc, hh]
  · have hc : ¬ (0 ≤ j ∧ j < seq.length - 1 ∧ hit seq rep j = true) := fun h => hh h.2.2
    rw [if_neg hc]
    simp only [Bool.not_eq_true] at hh
    simp [hh, hj2]

theorem greedy_skip (a b L x : Nat) (l : List Nat)
    (h : ∀ y rest, l = y :: rest → ¬ (x = a ∧ y = b ∧ x ≠ 0 ∧ y ≠ 0)) :
    greedy a b L (x :: l) = x :: greedy a b L l := by
  cases l with
  | nil => simp [greedy]
  | cons y rest =>
    have := h y rest rfl
    rw [greedy, if_neg this]

theorem greedy_take (a b L : Nat) (rest : List Nat) (ha : a ≠ 0) (hb : b ≠ 0) :
    greedy a b L (a :: b :: rest) = L :: greedy a b L rest := by
  rw [greedy, if_pos ⟨rfl, rfl, ha, hb⟩]

/-- The replace loop, run on marks that record the test of the marking loop,
is the single-pass replacement of the rest of the sequence. -/
theorem replaceLoop_spec (seq : List Nat) (a b L : Nat) (tr : List Bool)
    (hl : seq.length ≤ tr.length)
    (hm : ∀ j, j < tr.length → tr[j]? = some (hit seq (a, b) j)) :
    ∀ (fuel i : Nat) (acc : List Nat), seq.length - i ≤ fuel →
      replaceLoop seq tr L fuel i acc = some (acc ++ greedy a b L (seq.drop i)) := by
  intro fuel
  induction fuel with
  | zero =>
    intro i acc hf
    have : seq.drop i = [] := List.drop_eq_nil_of_le (by omega)
    simp [replaceLoop, this, greedy]
  | succ fuel ih =>
    intro i acc hf
    unfold replaceLoop
    by_cases hi : i < seq.length
    · rw [if_pos hi, List.get?_eq_getElem?, hm i (by omega)]
      cases hh : hit seq (a, b) i with
      | true =>
        have hlt := hit_lt seq (a, b) i hh
        obtain ⟨e1, e2, ha, hb⟩ := (hit_iff seq a b i).1 hh
        simp only
        rw [ih (i + 2) _ (by omega)]
        have hd : seq.drop i = a :: b :: seq.drop (i + 2) := by
          rw [List.drop_eq_getElem_cons hi, List.drop_eq_getElem_cons hlt]
          rw [List.getElem?_eq_getElem hi] at e1
          rw [List.getElem?_eq_getElem hlt] at e2
          simp only [Option.some.injEq] at e1 e2
          rw [e1, e2]
        rw [hd, greedy_take a b L _ ha hb]
        simp
      | false =>
        simp only
        rw [List.get?_eq_getElem?, List.getElem?_eq_getElem hi]
        simp only
        rw [ih (i + 1) _ (by omega)]
        rw [List.drop_eq_getElem_cons hi, greedy_skip]
        · simp
        · intro y rest hy hc
          have hy2 : seq[i + 1]? = some y := by
            have : (seq.drop (i + 1))[0]? = some y := by rw [hy]; simp
            simpa using this
          have : hit seq (a, b) i = true := by
            rw [hit_iff]
            refine ⟨?_, ?_, ?_, ?_⟩
            · rw [List.getElem?_eq_getElem hi, hc.1]
            · rw [hy2, hc.2.1]
            · rw [← hc.1]; exact hc.2.2.1
            · rw [← hc.2.1]; exact hc.2.2.2
          rw [hh] at this
          exact Bool.noConfusion this
    · rw [if_neg hi]
      have : seq.drop i = [] := List.drop_eq_nil_of_le (by omega)
      simp [this, greedy]

/-- The two passes of a round on a non-empty sequence are the single-pass
replacement. -/
theorem rewrite_eq_greedy (seq : List Nat) (a b L : Nat) (to_replace : List Bool)
    (h0 : 0 < seq.length) (hn : seq.length < 2 ^ 64) (hl : seq.length ≤ to_replace.length) :
    ∃ tr1, rewritePass seq (a, b) L to_replace = some (tr1, greedy a b L seq) ∧
      tr1.length = to_replace.length := by
  obtain ⟨tr1, e1, l1, g1⟩ := marks_spec seq (a, b) to_replace h0 hn hl
  refine ⟨tr1, ?_, l1⟩
  unfold rewritePass
  rw [e1]
  simp only
  rw [replaceLoop_spec seq a b L tr1 (by omega) g1 seq.length 0 [] (by omega)]
  simp

/-! ## The counting pass -/

theorem square_mkTable (L : Nat) : Square (mkTable L) L := by
  refine ⟨by simp [mkTable], ?_⟩
  intro i hi
  simp [mkTable, List.getD_eq_getElem?_getD, List.getElem?_replicate, hi]

theorem cell_mkTable (L i j : Nat) : cell (mkTable L) i j = 0 := by
  unfold cell mkTable
  simp only [List.getD_eq_getElem?_getD, List.getElem?_replicate]
  by_cases hi : i < L
  · by_cases hj : j < L <;> simp [hi, hj]
  · simp [hi]

theorem getD_set_eq {α : Type} (l : List α) (a i : Nat) (v d : α) (h : a < l.length) :
    (l.set a v).getD i d = if i = a then v else l.getD i d := by
  rw [List.getD_eq_getElem?_getD, List.getElem?_set, List.getD_eq_getElem?_getD]
  by_cases hia : a = i
  · subst hia
    simp [h]
  · have : ¬ i = a := fun e => hia e.symm
    simp [hia, this]

theorem getD_of_get? {α : Type} (l : List α) (i : Nat) (v d : α) (h : l.get? i = some v) :
    l.getD i d = v := by
  rw [List.get?_eq_getElem?] at h
  rw [List.getD_eq_getElem?_getD, h]
  rfl

theorem incr_spec (tb : Table) (L a b : Nat) (hc : Square tb L) (ha : a < L) (hb : b < L) :
    ∃ c1, incr tb a b = some c1 ∧ Square c1 L ∧
      ∀ i j, cell c1 i j = if i = a ∧ j = b then (cell tb a b + 1) % SIZE_MOD else cell tb i j := by
  obtain ⟨hlen, hrow⟩ := hc
  have ha2 : a < tb.length := by omega
  obtain ⟨row, hrow1⟩ : ∃ row, tb.get? a = some row :=
    ⟨_, by rw [List.get?_eq_getElem?]; exact List.getElem?_eq_getElem ha2⟩
  have hca : tb.getD a [] = row := getD_of_get? tb a row [] hrow1
  have hr : row.length = L := by rw [← hca]; exact hrow a ha
  have hb2 : b < row.length := by omega
  obtain ⟨v, hv1⟩ : ∃ v, row.get? b = some v :=
    ⟨_, by rw [List.get?_eq_getElem?]; exact List.getElem?_eq_getElem hb2⟩
  have hcab : cell tb a b = v := by
    unfold cell
    rw [hca]
    exact getD_of_get? row b v 0 hv1
  refine ⟨tb.set a (row.set b ((v + 1) % SIZE_MOD)), ?_, ?_, ?_⟩
  · unfold incr
    rw [hrow1]
    simp only
    rw [hv1]
  · refine ⟨by simpa using hlen, ?_⟩
    intro i hi
    rw [getD_set_eq tb a i _ [] ha2]
    by_cases hia : i = a
    · rw [if_pos hia]
      simpa using hr
    · rw [if_neg hia]
      exact hrow i hi
  · intro i j
    unfold cell
    rw [getD_set_eq tb a i _ [] ha2]
    by_cases hia : i = a
    · subst hia
      rw [if_pos rfl, getD_set_eq row b j _ 0 hb2, hca]
      by_cases hjb : j = b
      · subst hjb
        rw [if_pos rfl, if_pos ⟨rfl, rfl⟩]
        have := getD_of_get? row j v 0 hv1
        rw [this]
      · have h2 : ¬ (i = i ∧ j = b) := fun h => hjb h.2
        rw [if_neg hjb, if_neg h2]
    · have h2 : ¬ (i = a ∧ j = b) := fun h => hia h.1
      rw [if_neg hia, if_neg h2]

theorem pairCountUpto_succ (seq : List Nat) (i j p : Nat) :
    pairCountUpto seq i j (p + 1) = pairCountUpto seq i j p +
      (if seq.getD p 0 = i ∧ seq.getD (p + 1) 0 = j ∧ i ≠ 0 ∧ j ≠ 0 then 1 else 0) := by
  unfold pairCountUpto
  rw [List.range_succ, List.filter_append, List.length_append]
  congr 1
  by_cases h : seq.getD p 0 = i ∧ seq.getD (p + 1) 0 = j ∧ i ≠ 0 ∧ j ≠ 0
  · rw [if_pos h, List.filter_cons_of_pos (by simpa using h)]
    rfl
  · rw [if_neg h, List.filter_cons_of_neg (by simpa using h)]
    rfl

theorem pairCountUpto_le (seq : List Nat) (i j p : Nat) : pairCountUpto seq i j p ≤ p := by
  unfold pairCountUpto
  calc ((List.range p).filter _).length ≤ (List.range p).length := List.length_filter_le _ _
    _ = p := List.length_range p

theorem pairCount_eq (seq : List Nat) (i j : Nat) :
    pairCount seq i j = pairCountUpto seq i j (seq.length - 1) := rfl

/-- The counting loop from position `p` on a table that holds the counts of the
positions below `p`: no out-of-bounds access, and the result holds the counts
of the positions below `bound`. -/
theorem countLoop_spec (seq : List Nat) (L bound : Nat)
    (hb : bound + 1 ≤ seq.length) (hb2 : bound < 2 ^ 64) (hL : ∀ x ∈ seq, x < L) :
    ∀ (fuel p : Nat) (c : Table), Square c L → p ≤ bound → bound - p ≤ fuel →
      (∀ i j, cell c i j = pairCountUpto seq i j p) →
      ∃ c1, countLoop seq bound fuel p c = some c1 ∧ Square c1 L ∧
        ∀ i j, cell c1 i j = pairCountUpto seq i j bound := by
  intro fuel
  induction fuel with
  | zero =>
    intro p c hc hp hf hinv
    have : p = bound := by omega
    subst this
    exact ⟨c, rfl, hc, hinv⟩
  | succ fuel ih =>
    intro p c hc hp hf hinv
    unfold countLoop
    by_cases hi : p < bound
    · have h1 : p < seq.length := by omega
      have h2 : p + 1 < seq.length := by omega
      have g1 : seq.getD p 0 = seq[p] := by
        simp [List.getD_eq_getElem?_getD, List.getElem?_eq_getElem h1]
      have g2 : seq.getD (p + 1) 0 = seq[p + 1] := by
        simp [List.getD_eq_getElem?_getD, List.getElem?_eq_getElem h2]
      rw [if_pos hi, List.get?_eq_getElem?, List.getElem?_eq_getElem h1]
      simp only
      rw [List.get?_eq_getElem?, List.getElem?_eq_getElem h2]
      simp only
      by_cases ha : seq[p] ≠ 0
      · by_cases hbn : seq[p + 1] ≠ 0
        · rw [if_pos ha, if_pos hbn]
          obtain ⟨c1, e1, s1, v1⟩ := incr_spec c L seq[p] seq[p + 1] hc
            (hL _ (List.getElem_mem h1)) (hL _ (List.getElem_mem h2))
          rw [e1]
          simp only
          apply ih (p + 1) c1 s1 (by omega) (by omega)
          intro i j
          rw [v1 i j, pairCountUpto_succ, g1, g2, hinv, hinv]
          have hle := pairCountUpto_le seq seq[p] seq[p + 1] p
          have hmod : (pairCountUpto seq seq[p] seq[p + 1] p + 1) % SIZE_MOD =
              pairCountUpto seq seq[p] seq[p + 1] p + 1 := by
            apply Nat.mod_eq_of_lt
            unfold SIZE_MOD
            omega
          by_cases hij : i = seq[p] ∧ j = seq[p + 1]
          · obtain ⟨rfl, rfl⟩ := hij
            have hc2 : seq[p] = seq[p] ∧ seq[p + 1] = seq[p + 1] ∧ seq[p] ≠ 0 ∧ seq[p + 1] ≠ 0 :=
              ⟨rfl, rfl, ha, hbn⟩
            rw [if_pos ⟨rfl, rfl⟩, if_pos hc2, hmod]
          · have hc2 : ¬ (seq[p] = i ∧ seq[p + 1] = j ∧ i ≠ 0 ∧ j ≠ 0) :=
              fun h => hij ⟨h.1.symm, h.2.1.symm⟩
            rw [if_neg hij, if_neg hc2]
            rfl
        · rw [if_pos ha, if_neg hbn]
          apply ih (p + 1) c hc (by omega) (by omega)
          intro i j
          rw [pairCountUpto_succ, g1, g2, hinv]
          have hc2 : ¬ (seq[p] = i ∧ seq[p + 1] = j ∧ i ≠ 0 ∧ j ≠ 0) := by
            rintro ⟨_, h, _, h4⟩
            exact hbn (h ▸ h4)
          rw [if_neg hc2]
          rfl
      · rw [if_neg ha]
        apply ih (p + 1) c hc (by omega) (by omega)
        intro i j
        rw [pairCountUpto_succ, g1, g2, hinv]
        have hc2 : ¬ (seq[p] = i ∧ seq[p + 1] = j ∧ i ≠ 0 ∧ j ≠ 0) := by
          rintro ⟨h, _, h3, _⟩
          exact ha (h ▸ h3)
        rw [if_neg hc2]
        rfl
    · rw [if_neg hi]
      have : p = bound := by omega
      subst this
      exact ⟨c, rfl, hc, hinv⟩

/-- The counting pass of a round on a non-empty sequence with entries below
`L`. -/
theorem count_spec (seq : List Nat) (L : Nat)
    (h0 : 0 < seq.length) (hn : seq.length < 2 ^ 64) (hL : ∀ x ∈ seq, x < L) :
    ∃ c, countLoop seq (loopBound seq.length) (loopBound seq.length) 0 (mkTable L) = some c ∧
      Square c L ∧ ∀ i j, cell c i j = pairCount seq i j := by
  rw [loopBound_pos _ h0 hn]
  have := countLoop_spec seq L (seq.length - 1) (by omega) (by omega) hL (seq.length - 1) 0
    (mkTable L) (square_mkTable L) (by omega) (by omega)
    (by intro i j; rw [cell_mkTable]; rfl)
  simpa [pairCount_eq] using this

/-! ## The selection loops -/

theorem selectStep_inv (c : Table) (acc : Nat × kmer) (i j : Nat)
    (hs : Scanned c i j) (h : SelInv c acc i j) : SelInv c (selectStep c i acc j) i (j + 1) := by
  obtain ⟨h1, h2, h3⟩ := h
  unfold selectStep
  by_cases hgt : cell c i j > acc.1
  · rw [if_pos hgt]
    refine ⟨?_, ?_, ?_⟩
    · intro i1 j1 hs1 hb
      show cell c i1 j1 ≤ cell c i j
      rcases hb with hb | ⟨rfl, hb⟩
      · have := h1 i1 j1 hs1 (Or.inl hb)
        omega
      · by_cases hj : j1 = j
        · subst hj
          exact le_refl _
        · have := h1 i1 j1 hs1 (Or.inr ⟨rfl, by omega⟩)
          omega
    · intro h0
      have h0 : cell c i j = 0 := h0
      omega
    · intro _
      refine ⟨hs, rfl, ?_⟩
      intro i1 j1 hs1 hb
      have := h1 i1 j1 hs1 hb
      show cell c i1 j1 < cell c i j
      omega
  · rw [if_neg hgt]
    refine ⟨?_, h2, h3⟩
    intro i1 j1 hs1 hb
    rcases hb with hb | ⟨rfl, hb⟩
    · exact h1 i1 j1 hs1 (Or.inl hb)
    · by_cases hj : j1 = j
      · subst hj
        omega
      · exact h1 i1 j1 hs1 (Or.inr ⟨rfl, by omega⟩)

theorem selectRow_inv (c : Table) (i : Nat) (hi1 : 1 ≤ i) (hi2 : i < c.length) :
    ∀ (k j : Nat) (acc : Nat × kmer), 1 ≤ j → j + k ≤ (c.getD i []).length →
      SelInv c acc i j →
      SelInv c ((List.range' j k).foldl (selectStep c i) acc) i (j + k) := by
  intro k
  induction k with
  | zero =>
    intro j acc _ _ h
    simpa using h
  | succ k ih =>
    intro j acc hj hk h
    rw [List.range'_succ, List.foldl_cons]
    have := ih (j + 1) (selectStep c i acc j) (by omega) (by omega)
      (selectStep_inv c acc i j ⟨hi1, hi2, hj, by omega⟩ h)
    have e : j + 1 + k = j + (k + 1) := by omega
    rw [e] at this
    exact this

theorem selectRow_next (c : Table) (acc : Nat × kmer) (i : Nat) (hi1 : 1 ≤ i)
    (hi2 : i < c.length) (h : SelInv c acc i 1) : SelInv c (selectRow c acc i) (i + 1) 1 := by
  unfold selectRow
  by_cases hl : (c.getD i []).length = 0
  · rw [hl]
    obtain ⟨h1, h2, h3⟩ := h
    refine ⟨?_, h2, h3⟩
    intro i1 j1 hs1 hb
    rcases hb with hb | ⟨rfl, hb⟩
    · by_cases e : i1 = i
      · subst e
        have := hs1.2.2.2
        omega
      · exact h1 i1 j1 hs1 (Or.inl (by omega))
    · have := hs1.2.2.1
      omega
  · obtain ⟨h1, h2, h3⟩ := selectRow_inv c i hi1 hi2 ((c.getD i []).length - 1) 1 acc
      (le_refl _) (by omega) h
    refine ⟨?_, h2, h3⟩
    intro i1 j1 hs1 hb
    rcases hb with hb | ⟨rfl, hb⟩
    · by_cases e : i1 = i
      · subst e
        have := hs1.2.2.2
        exact h1 i1 j1 hs1 (Or.inr ⟨rfl, by omega⟩)
      · exact h1 i1 j1 hs1 (Or.inl (by omega))
    · have := hs1.2.2.1
      omega

theorem selectRows_inv (c : Table) :
    ∀ (k i : Nat) (acc : Nat × kmer), 1 ≤ i → i + k ≤ max c.length 1 →
      SelInv c acc i 1 →
      SelInv c ((List.range' i k).foldl (selectRow c) acc) (i + k) 1 := by
  intro k
  induction k with
  | zero =>
    intro i acc _ _ h
    simpa using h
  | succ k ih =>
    intro i acc hi hk h
    rw [List.range'_succ, List.foldl_cons]
    have hlt : i < c.length := by
      rcases Nat.le_total c.length 1 with h1 | h1
      · rw [max_eq_right h1] at hk
        omega
      · rw [max_eq_left h1] at hk
        omega
    have := ih (i + 1) (selectRow c acc i) (by omega) (by omega)
      (selectRow_next c acc i hi hlt h)
    have e : i + 1 + k = i + (k + 1) := by omega
    rw [e] at this
    exact this

/-- The result of the selection loops on any table. -/
theorem select_spec (c : Table) :
    (∀ i j, Scanned c i j → cell c i j ≤ (select c).1) ∧
    ((select c).1 = 0 → (select c).2 = (0, 0)) ∧
    (0 < (select c).1 → Scanned c (select c).2.1 (select c).2.2 ∧
      cell c (select c).2.1 (select c).2.2 = (select c).1 ∧
      ∀ i j, Scanned c i j → Before (select c).2.1 (select c).2.2 i j →
        cell c i j < (select c).1) := by
  have h0 : SelInv c (0, (0, 0)) 1 1 := by
    refine ⟨?_, fun _ => rfl, fun h => absurd h (lt_irrefl 0)⟩
    intro i1 j1 hs hb
    rcases hb with hb | ⟨_, hb⟩
    · have := hs.1
      omega
    · have := hs.2.2.1
      omega
  obtain ⟨h1, h2, h3⟩ := selectRows_inv c (c.length - 1) 1 (0, (0, 0)) (le_refl _)
    (by rcases Nat.le_total c.length 1 with h | h
        · rw [max_eq_right h]; omega
        · rw [max_eq_left h]; omega) h0
  refine ⟨?_, h2, h3⟩
  intro i j hs
  apply h1 i j hs
  left
  have := hs.2.1
  omega

/-! ## One round -/

theorem countLoop_oob (seq : List Nat) (bound fuel i : Nat) (c : Table)
    (hf : fuel ≠ 0) (hi : i < bound) (h : seq.get? i = none) :
    countLoop seq bound fuel i c = none := by
  cases fuel with
  | zero => exact absurd rfl hf
  | succ fuel =>
    unfold countLoop
    rw [if_pos hi, h]

/-- On an empty working sequence the bound of the counting loop wraps to
`2 ^ 64 - 1` and the first iteration reads `seq[0]`. -/
theorem round_nil (s : State) (h : s.seq = []) : round s = Outcome.fault := by
  unfold round
  rw [h]
  have : countLoop [] (loopBound ([] : List Nat).length) (loopBound ([] : List Nat).length) 0
      (mkTable s.L) = none := by
    apply countLoop_oob
    · rw [List.length_nil, loopBound_zero]
      decide
    · rw [List.length_nil, loopBound_zero]
      decide
    · rfl
  rw [this]

theorem round_brk (s s1 : State) (h : round s = Outcome.brk s1) : s1 = s := by
  unfold round at h
  split at h
  · exact Outcome.noConfusion h
  · simp only at h
    split at h
    · exact (Outcome.brk.inj h).symm
    · split at h
      · exact Outcome.noConfusion h
      · exact Outcome.noConfusion h

/-- One round on a non-empty sequence whose entries are below `L`: the table
holds the pair counts, and the round either breaks or moves to the state with
the single-pass replacement of the selected pair. -/
theorem round_spec (s : State) (h0 : 0 < s.seq.length) (hn : s.seq.length < 2 ^ 64)
    (hL : ∀ x ∈ s.seq, x < s.L) (hl : s.seq.length ≤ s.to_replace.length) :
    ∃ c tr1, Square c s.L ∧ (∀ i j, cell c i j = pairCount s.seq i j) ∧
      tr1.length = s.to_replace.length ∧
      round s =
        if (select c).1 = 1 then Outcome.brk s
        else Outcome.cont
          { seq := greedy (select c).2.1 (select c).2.2 s.L s.seq
            merged := s.merged ++ [(select c).2]
            L := s.L + 1
            tokens := assign s.tokens s.L (select c).2
            rev_tokens := assign s.rev_tokens (select c).2 s.L
            to_replace := tr1 } := by
  obtain ⟨c, ec, sq, hc⟩ := count_spec s.seq s.L h0 hn hL
  obtain ⟨tr1, er, lr⟩ := rewrite_eq_greedy s.seq (select c).2.1 (select c).2.2 s.L
    s.to_replace h0 hn hl
  refine ⟨c, tr1, sq, hc, lr, ?_⟩
  unfold round
  rw [ec]
  simp only
  by_cases h1 : (select c).1 = 1
  · rw [if_pos h1, if_pos h1]
  · rw [if_neg h1, if_neg h1]
    have : ((select c).2.1, (select c).2.2) = (select c).2 := rfl
    rw [this] at er
    rw [er]

/-- Induction over the rounds of the loop. -/
theorem run_induct (P : State → Prop)
    (hstep : ∀ s s1, P s → round s = Outcome.cont s1 → P s1) :
    ∀ (n : Nat) (s0 s : State), P s0 →
      (run n s0 = Outcome.cont s ∨ run n s0 = Outcome.brk s) → P s := by
  intro n
  induction n with
  | zero =>
    intro s0 s h0 h
    rcases h with h | h
    · have : s0 = s := Outcome.cont.inj h
      exact this ▸ h0
    · exact Outcome.noConfusion h
  | succ n ih =>
    intro s0 s h0 h
    unfold run at h
    cases hr : round s0 with
    | brk s1 =>
      rw [hr] at h
      simp only at h
      rcases h with h | h
      · exact Outcome.noConfusion h
      · have e1 : s1 = s := Outcome.brk.inj h
        have e2 := round_brk s0 s1 hr
        rw [← e1, e2]
        exact h0
    | cont s1 =>
      rw [hr] at h
      simp only at h
      exact ih s1 s (hstep s0 s1 h0 hr) h
    | fault =>
      rw [hr] at h
      simp only at h
      rcases h with h | h <;> exact Outcome.noConfusion h

/-! ## The TokenTable and expansion -/

theorem any_eq_false_of_lookup {β : Type} (m : List (Nat × β)) (key : Nat)
    (h : m.lookup key = none) : m.any (fun e => decide (e.1 = key)) = false := by
  induction m with
  | nil => rfl
  | cons e m ih =>
    obtain ⟨k, v⟩ := e
    rw [List.lookup_cons] at h
    by_cases hk : key == k
    · rw [hk] at h
      exact Option.noConfusion h
    · simp only [hk] at h
      have hne : ¬ k = key := by
        intro e
        apply hk
        rw [e]
        exact beq_self_eq_true key
      rw [List.any_cons, ih h]
      simp [hne]

theorem assign_fresh {β : Type} (m : List (Nat × β)) (key : Nat) (v : β)
    (h : m.lookup key = none) : assign m key v = m ++ [(key, v)] := by
  unfold assign
  rw [any_eq_false_of_lookup m key h]
  rfl

theorem lookup_assign_fresh {β : Type} (m : List (Nat × β)) (key k : Nat) (v : β)
    (h : m.lookup key = none) :
    (assign m key v).lookup k = if k = key then some v else m.lookup k := by
  rw [assign_fresh m key v h, List.lookup_append]
  by_cases hk : k = key
  · subst hk
    rw [h, if_pos rfl]
    simp [List.lookup_cons]
  · rw [if_neg hk]
    have : (k == key) = false := by simpa using hk
    cases hm : m.lookup k <;> simp [List.lookup_cons, this]

theorem tokensOk_assign (tokens : List (Nat × kmer)) (L0 L : Nat) (rep : kmer)
    (h : TokensOk tokens L0 L) (hL : L0 ≤ L) (h1 : rep.1 < L) (h2 : rep.2 < L) :
    TokensOk (assign tokens L rep) L0 (L + 1) := by
  obtain ⟨ha, hb, hc⟩ := h
  have hf := hb L (le_refl L)
  refine ⟨?_, ?_, ?_⟩
  · intro k hk
    rw [lookup_assign_fresh tokens L k rep hf, if_neg (by omega)]
    exact ha k hk
  · intro k hk
    rw [lookup_assign_fresh tokens L k rep hf, if_neg (by omega)]
    exact hb k (by omega)
  · intro k a b hk
    rw [lookup_assign_fresh tokens L k rep hf] at hk
    by_cases e : k = L
    · rw [if_pos e] at hk
      have : rep = (a, b) := Option.some.inj hk
      subst e
      rw [this] at h1 h2
      exact ⟨h1, h2⟩
    · rw [if_neg e] at hk
      exact hc k a b hk

/-- With enough depth the expansion of an id does not depend on the depth. -/
theorem expandTok_stable (tokens : List (Nat × kmer))
    (hc : ∀ k a b, tokens.lookup k = some (a, b) → a < k ∧ b < k) :
    ∀ (f1 f2 x : Nat), x < f1 → x < f2 → expandTok tokens f1 x = expandTok tokens f2 x := by
  intro f1
  induction f1 with
  | zero => intro f2 x h; omega
  | succ f1 ih =>
    intro f2 x h1 h2
    cases f2 with
    | zero => omega
    | succ f2 =>
      unfold expandTok
      cases hl : tokens.lookup x with
      | none => rfl
      | some r =>
        obtain ⟨a, b⟩ := r
        obtain ⟨ha, hb⟩ := hc x a b hl
        simp only
        rw [ih f2 a (by omega) (by omega), ih f2 b (by omega) (by omega)]

/-- Recording a new id `L` does not change the expansion of the ids below
`L`. -/
theorem expandTok_assign (tokens : List (Nat × kmer)) (L0 L : Nat) (rep : kmer)
    (h : TokensOk tokens L0 L) :
    ∀ (fuel x : Nat), x < L →
      expandTok (assign tokens L rep) fuel x = expandTok tokens fuel x := by
  obtain ⟨_, hb, hc⟩ := h
  have hf := hb L (le_refl L)
  intro fuel
  induction fuel with
  | zero => intro x _; rfl
  | succ fuel ih =>
    intro x hx
    unfold expandTok
    rw [lookup_assign_fresh tokens L x rep hf, if_neg (by omega)]
    cases hl : tokens.lookup x with
    | none => rfl
    | some r =>
      obtain ⟨a, b⟩ := r
      obtain ⟨ha, hb⟩ := hc x a b hl
      simp only
      rw [ih a (by omega), ih b (by omega)]

theorem expandTok_new (tokens : List (Nat × kmer)) (L0 L a b : Nat)
    (h : TokensOk tokens L0 L) (ha : a < L) (hb : b < L) (fuel : Nat) (hfuel : L < fuel) :
    expandTok (assign tokens L (a, b)) fuel L =
      expandTok tokens fuel a ++ expandTok tokens fuel b := by
  have hf := h.2.1 L (le_refl L)
  cases fuel with
  | zero => omega
  | succ fuel =>
    rw [expandTok, lookup_assign_fresh tokens L L (a, b) hf, if_pos rfl]
    simp only
    rw [expandTok_assign tokens L0 L (a, b) h fuel a ha,
      expandTok_assign tokens L0 L (a, b) h fuel b hb,
      expandTok_stable tokens h.2.2 fuel (fuel + 1) a (by omega) (by omega),
      expandTok_stable tokens h.2.2 fuel (fuel + 1) b (by omega) (by omega)]

theorem expand_nil (tokens : List (Nat × kmer)) (fuel : Nat) : expand tokens fuel [] = [] := rfl

theorem expand_cons (tokens : List (Nat × kmer)) (fuel x : Nat) (l : List Nat) :
    expand tokens fuel (x :: l) = expandTok tokens fuel x ++ expand tokens fuel l := rfl

/-- Expanding the rewritten sequence through the extended table gives the
expansion of the sequence before the rewrite. -/
theorem expand_greedy (tokens : List (Nat × kmer)) (L0 L a b : Nat)
    (h : TokensOk tokens L0 L) (ha : a < L) (hb : b < L) (fuel : Nat) (hfuel : L < fuel) :
    ∀ (n : Nat) (l : List Nat), l.length ≤ n → (∀ x ∈ l, x < L) →
      expand (assign tokens L (a, b)) fuel (greedy a b L l) = expand tokens fuel l := by
  intro n
  induction n with
  | zero =>
    intro l hl _
    have : l = [] := List.length_eq_zero.1 (by omega)
    subst this
    rfl
  | succ n ih =>
    intro l hl hlt
    match l, hl, hlt with
    | [], _, _ => rfl
    | [x], _, hlt =>
      rw [greedy, expand_cons, expand_cons, expand_nil, expand_nil,
        expandTok_assign tokens L0 L (a, b) h fuel x (hlt x (by simp))]
    | x :: y :: rest, hl, hlt =>
      have hx : x < L := hlt x (by simp)
      have hrest : ∀ z ∈ rest, z < L := fun z hz => hlt z (by simp [hz])
      have hyrest : ∀ z ∈ y :: rest, z < L := fun z hz => hlt z (by simp [hz])
      by_cases hc : x = a ∧ y = b ∧ x ≠ 0 ∧ y ≠ 0
      · rw [greedy, if_pos hc, expand_cons, expand_cons, expand_cons,
          ih rest (by simp at hl; omega) hrest,
          expandTok_new tokens L0 L a b h ha hb fuel hfuel, hc.1, hc.2.1]
        simp
      · rw [greedy, if_neg hc, expand_cons, expand_cons,
          ih (y :: rest) (by simp at hl ⊢; omega) hyrest,
          expandTok_assign tokens L0 L (a, b) h fuel x hx]

/-! ## Properties of the single-pass replacement -/

/-- Induction along the recursion of `greedy`. -/
theorem greedy_induct (a b : Nat) (P : List Nat → Prop) (h0 : P [])
    (h1 : ∀ x, P [x])
    (h2 : ∀ x y rest, (x = a ∧ y = b ∧ x ≠ 0 ∧ y ≠ 0) → P rest → P (x :: y :: rest))
    (h3 : ∀ x y rest, ¬ (x = a ∧ y = b ∧ x ≠ 0 ∧ y ≠ 0) → P (y :: rest) → P (x :: y :: rest)) :
    ∀ l, P l := by
  have key : ∀ (n : Nat) (l : List Nat), l.length ≤ n → P l := by
    intro n
    induction n with
    | zero =>
      intro l hl
      have : l = [] := List.length_eq_zero.1 (by omega)
      exact this ▸ h0
    | succ n ih =>
      intro l hl
      match l, hl with
      | [], _ => exact h0
      | [x], _ => exact h1 x
      | x :: y :: rest, hl =>
        by_cases hc : x = a ∧ y = b ∧ x ≠ 0 ∧ y ≠ 0
        · exact h2 x y rest hc (ih rest (by simp at hl; omega))
        · exact h3 x y rest hc (ih (y :: rest) (by simp at hl ⊢; omega))
  intro l
  exact key l.length l (le_refl _)

theorem mem_greedy (a b L : Nat) (l : List Nat) :
    ∀ z, z ∈ greedy a b L l → z = L ∨ z ∈ l := by
  induction l using greedy_induct a b with
  | h0 => intro z hz; simp [greedy] at hz
  | h1 x => intro z hz; right; simpa [greedy] using hz
  | h2 x y rest hc ih =>
    intro z hz
    rw [greedy, if_pos hc] at hz
    rcases List.mem_cons.1 hz with e | hz
    · exact Or.inl e
    · rcases ih z hz with e | hm
      · exact Or.inl e
      · right; simp [hm]
  | h3 x y rest hc ih =>
    intro z hz
    rw [greedy, if_neg hc] at hz
    rcases List.mem_cons.1 hz with e | hz
    · right; simp [e]
    · rcases ih z hz with e | hm
      · exact Or.inl e
      · right; exact List.mem_cons_of_mem _ hm

/-- The new id is emitted only where the selected pair stands, with both of
its ids non-zero. -/
theorem greedy_emits (a b L : Nat) (l : List Nat) (hL : L ∉ l) :
    L ∈ greedy a b L l → a ∈ l ∧ b ∈ l ∧ a ≠ 0 ∧ b ≠ 0 := by
  induction l using greedy_induct a b with
  | h0 => intro hz; simp [greedy] at hz
  | h1 x =>
    intro hz
    rw [greedy] at hz
    exact absurd hz hL
  | h2 x y rest hc ih =>
    intro _
    obtain ⟨rfl, rfl, hx, hy⟩ := hc
    exact ⟨by simp, by simp, hx, hy⟩
  | h3 x y rest hc ih =>
    intro hz
    rw [greedy, if_neg hc] at hz
    have hxL : L ≠ x := fun e => hL (by simp [e])
    rcases List.mem_cons.1 hz with e | hz
    · exact absurd e hxL
    · obtain ⟨h1, h2, h3, h4⟩ := ih (fun hm => hL (List.mem_cons_of_mem _ hm)) hz
      exact ⟨List.mem_cons_of_mem _ h1, List.mem_cons_of_mem _ h2, h3, h4⟩

/-- The replacement consumes no 0. -/
theorem count_zero_greedy (a b L : Nat) (hL : L ≠ 0) (l : List Nat) :
    (greedy a b L l).count 0 = l.count 0 := by
  induction l using greedy_induct a b with
  | h0 => rfl
  | h1 x => rfl
  | h2 x y rest hc ih =>
    obtain ⟨_, _, hx, hy⟩ := hc
    rw [greedy, if_pos ⟨by assumption, by assumption, hx, hy⟩,
      List.count_cons_of_ne hL.symm, List.count_cons_of_ne (Ne.symm hx),
      List.count_cons_of_ne (Ne.symm hy), ih]
  | h3 x y rest hc ih =>
    rw [greedy, if_neg hc, List.count_cons, List.count_cons, ih]

/-- Each emission of the new id shortens the sequence by one. -/
theorem length_greedy (a b L : Nat) (l : List Nat) (hL : L ∉ l) :
    (greedy a b L l).length + (greedy a b L l).count L = l.length := by
  induction l using greedy_induct a b with
  | h0 => rfl
  | h1 x =>
    have : x ≠ L := fun e => hL (by simp [e])
    rw [greedy, List.count_cons_of_ne this.symm]
    rfl
  | h2 x y rest hc ih =>
    have := ih (fun hm => hL (by simp [hm]))
    rw [greedy, if_pos hc, List.count_cons_self]
    simp only [List.length_cons]
    omega
  | h3 x y rest hc ih =>
    have hx : x ≠ L := fun e => hL (by simp [e])
    have := ih (fun hm => hL (List.mem_cons_of_mem _ hm))
    rw [greedy, if_neg hc, List.count_cons_of_ne hx.symm]
    simp only [List.length_cons] at this ⊢
    omega

theorem length_greedy_le (a b L : Nat) (l : List Nat) :
    (greedy a b L l).length ≤ l.length := by
  induction l using greedy_induct a b with
  | h0 => exact le_refl _
  | h1 x => exact le_refl _
  | h2 x y rest hc ih =>
    rw [greedy, if_pos hc]
    simp only [List.length_cons]
    omega
  | h3 x y rest hc ih =>
    rw [greedy, if_neg hc]
    simp only [List.length_cons] at ih ⊢
    omega

theorem greedy_ne_nil (a b L : Nat) (l : List Nat) (h : l ≠ []) : greedy a b L l ≠ [] := by
  match l, h with
  | [x], _ => simp [greedy]
  | x :: y :: rest, _ =>
    by_cases hc : x = a ∧ y = b ∧ x ≠ 0 ∧ y ≠ 0
    · rw [greedy, if_pos hc]; simp
    · rw [greedy, if_neg hc]; simp

/-! ## The invariant of the loop -/

theorem select_lt (c : Table) (L : Nat) (hsq : Square c L) (hL : 0 < L) :
    (select c).2.1 < L ∧ (select c).2.2 < L := by
  obtain ⟨_, h2, h3⟩ := select_spec c
  rcases Nat.eq_zero_or_pos (select c).1 with h | h
  · rw [h2 h]
    exact ⟨hL, hL⟩
  · obtain ⟨hs, _, _⟩ := h3 h
    obtain ⟨_, a2, _, a4⟩ := hs
    rw [hsq.1] at a2
    rw [hsq.2 _ a2] at a4
    exact ⟨a2, a4⟩

/-- The shape of a round that falls through to the next one. -/
theorem round_cont_spec (s s1 : State) (hn : s.seq.length < 2 ^ 64)
    (hL : ∀ x ∈ s.seq, x < s.L) (hl : s.seq.length ≤ s.to_replace.length)
    (h : round s = Outcome.cont s1) :
    s.seq ≠ [] ∧ ∃ c, Square c s.L ∧ (∀ i j, cell c i j = pairCount s.seq i j) ∧
      (select c).1 ≠ 1 ∧
      s1.seq = greedy (select c).2.1 (select c).2.2 s.L s.seq ∧
      s1.merged = s.merged ++ [(select c).2] ∧
      s1.L = s.L + 1 ∧
      s1.tokens = assign s.tokens s.L (select c).2 ∧
      s1.rev_tokens = assign s.rev_tokens (select c).2 s.L ∧
      s1.to_replace.length = s.to_replace.length := by
  have hne : s.seq ≠ [] := by
    intro e
    rw [round_nil s e] at h
    exact Outcome.noConfusion h
  refine ⟨hne, ?_⟩
  have h0 : 0 < s.seq.length := List.length_pos.2 hne
  obtain ⟨c, tr1, sq, hc, lr, er⟩ := round_spec s h0 hn hL hl
  refine ⟨c, sq, hc, ?_⟩
  rw [er] at h
  by_cases h1 : (select c).1 = 1
  · rw [if_pos h1] at h
    exact Outcome.noConfusion h
  · rw [if_neg h1] at h
    have e := Outcome.cont.inj h
    subst e
    exact ⟨h1, rfl, rfl, rfl, rfl, rfl, lr⟩

theorem expandTok_nil (fuel x : Nat) : expandTok [] fuel x = [x] := by
  cases fuel <;> rfl

theorem expand_nil_tokens (fuel : Nat) (l : List Nat) : expand [] fuel l = l := by
  induction l with
  | nil => rfl
  | cons x l ih => rw [expand_cons, ih, expandTok_nil]; rfl

theorem inv_start (seq0 : List Nat) (L0 : Nat) (hlt : ∀ x ∈ seq0, x < L0) :
    Inv seq0 L0 (start seq0 L0) where
  len_le := le_refl _
  tr_len := by simp [start]
  lt_L := hlt
  L_eq := rfl
  tok := ⟨fun _ _ => rfl, fun _ _ => rfl, fun _ _ _ h => Option.noConfusion h⟩
  keys := rfl
  vals := rfl
  exp := fun fuel _ => expand_nil_tokens fuel seq0
  zeros := rfl
  nz := by
    intro x _ hx y hy
    have : y = x := by simpa [start, expandTok_nil] using hy
    rw [this]
    exact hx

theorem inv_step (seq0 : List Nat) (L0 : Nat) (h64 : seq0.length < 2 ^ 64) (hL0 : 0 < L0)
    (s s1 : State) (hi : Inv seq0 L0 s) (h : round s = Outcome.cont s1) : Inv seq0 L0 s1 := by
  obtain ⟨hne, c, sq, hc, h1, e1, e2, e3, e4, e5, e6⟩ :=
    round_cont_spec s s1 (lt_of_le_of_lt hi.len_le h64) hi.lt_L
      (by rw [hi.tr_len]; exact hi.len_le) h
  have hLpos : 0 < s.L := by rw [hi.L_eq]; omega
  obtain ⟨ra, rb⟩ := select_lt c s.L sq hLpos
  have hrep : (select c).2 = ((select c).2.1, (select c).2.2) := rfl
  have hfresh := hi.tok.2.1 s.L (le_refl _)
  have hnotin : s.L ∉ s.seq := fun hm => lt_irrefl _ (hi.lt_L _ hm)
  refine ⟨?_, ?_, ?_, ?_, ?_, ?_, ?_, ?_, ?_, ?_⟩
  · rw [e1]
    exact le_trans (length_greedy_le _ _ _ _) hi.len_le
  · rw [e6, hi.tr_len]
  · intro x hx
    rw [e1] at hx
    rw [e3]
    rcases mem_greedy _ _ _ _ x hx with e | hm
    · omega
    · have := hi.lt_L x hm
      omega
  · rw [e3, e2, hi.L_eq, List.length_append]
    rfl
  · rw [e3, e4]
    exact tokensOk_assign s.tokens L0 s.L _ hi.tok (by rw [hi.L_eq]; omega) ra rb
  · rw [e4, e2, assign_fresh _ _ _ hfresh, List.map_append, hi.keys, List.length_append,
      List.length_singleton, List.range'_concat, hi.L_eq]
    simp
  · rw [e4, e2, assign_fresh _ _ _ hfresh, List.map_append, hi.vals]
    rfl
  · intro fuel hf
    rw [e3] at hf
    rw [e1, e4, hrep, expand_greedy s.tokens L0 s.L _ _ hi.tok ra rb fuel (by omega)
      s.seq.length s.seq (le_refl _) hi.lt_L]
    exact hi.exp fuel (by omega)
  · rw [e1, count_zero_greedy _ _ _ (by omega)]
    exact hi.zeros
  · intro x hx hx0 y hy
    rw [e1] at hx
    rw [e3, e4] at hy
    rcases mem_greedy _ _ _ _ x hx with e | hm
    · subst e
      obtain ⟨ma, mb, na, nb⟩ := greedy_emits _ _ _ _ hnotin hx
      rw [hrep, expandTok_new s.tokens L0 s.L _ _ hi.tok ra rb (s.L + 1) (by omega)] at hy
      rcases List.mem_append.1 hy with hy | hy
      · rw [expandTok_stable s.tokens hi.tok.2.2 (s.L + 1) s.L _ (by omega) ra] at hy
        exact hi.nz _ ma na y hy
      · rw [expandTok_stable s.tokens hi.tok.2.2 (s.L + 1) s.L _ (by omega) rb] at hy
        exact hi.nz _ mb nb y hy
    · have hxl := hi.lt_L x hm
      rw [expandTok_assign s.tokens L0 s.L _ hi.tok (s.L + 1) x hxl,
        expandTok_stable s.tokens hi.tok.2.2 (s.L + 1) s.L x (by omega) hxl] at hy
      exact hi.nz x hm hx0 y hy

/-- The invariant holds at the start of every round and at `break`. -/
theorem inv_run (seq0 : List Nat) (L0 : Nat) (h64 : seq0.length < 2 ^ 64) (hL0 : 0 < L0)
    (hlt : ∀ x ∈ seq0, x < L0) (n : Nat) (s : State)
    (h : run n (start seq0 L0) = Outcome.cont s ∨ run n (start seq0 L0) = Outcome.brk s) :
    Inv seq0 L0 s :=
  run_induct (Inv seq0 L0) (fun s s1 hi hr => inv_step seq0 L0 h64 hL0 s s1 hi hr)
    n (start seq0 L0) s (inv_start seq0 L0 hlt) h

/-! ## The encoder -/

theorem subscript_spec (al : Alphabet) (key : String) (B : Nat) (hB : 0 < B)
    (h : ∀ e ∈ al, to_size_t e.2 < B) :
    to_size_t (subscript al key).1 < B ∧ (∀ e ∈ (subscript al key).2, to_size_t e.2 < B) ∧
      al.length ≤ (subscript al key).2.length := by
  unfold subscript
  cases hl : al.lookup key with
  | none =>
    refine ⟨hB, ?_, by simp⟩
    intro e he
    rcases List.mem_append.1 he with he | he
    · exact h e he
    · have : e = (key, 0) := by simpa using he
      rw [this]
      exact hB
  | some v =>
    refine ⟨?_, h, le_refl _⟩
    have hm : (key, v) ∈ al := by
      clear h
      induction al with
      | nil => exact Option.noConfusion hl
      | cons e al ih =>
        obtain ⟨k, w⟩ := e
        rw [List.lookup_cons] at hl
        by_cases hk : key == k
        · rw [hk] at hl
          have e1 : key = k := by simpa using hk
          have e2 : w = v := Option.some.inj hl
          rw [e1, e2]
          exact List.mem_cons_self _ _
        · simp only [hk] at hl
          exact List.mem_cons_of_mem _ (ih hl)
    exact h _ hm

theorem convert_fold_spec (B : Nat) (hB : 0 < B) :
    ∀ (l : List Char) (acc : List Nat × Alphabet),
      (∀ x ∈ acc.1, x < B) → (∀ e ∈ acc.2, to_size_t e.2 < B) →
      (∀ x ∈ (l.foldl pushCode acc).1, x < B) ∧
      (l.foldl pushCode acc).1.length = acc.1.length + l.length ∧
      acc.2.length ≤ (l.foldl pushCode acc).2.length := by
  intro l
  induction l with
  | nil => intro acc h1 _; exact ⟨h1, rfl, le_refl _⟩
  | cons ch l ih =>
    intro acc h1 h2
    rw [List.foldl_cons]
    obtain ⟨s1, s2, s3⟩ := subscript_spec acc.2 (String.singleton ch) B hB h2
    have hp1 : (pushCode acc ch).1 =
        acc.1 ++ [to_size_t (subscript acc.2 (String.singleton ch)).1] := rfl
    have hp2 : (pushCode acc ch).2 = (subscript acc.2 (String.singleton ch)).2 := rfl
    obtain ⟨r1, r2, r3⟩ := ih (pushCode acc ch)
      (by
        intro x hx
        rw [hp1] at hx
        rcases List.mem_append.1 hx with hx | hx
        · exact h1 x hx
        · have : x = to_size_t (subscript acc.2 (String.singleton ch)).1 := by simpa using hx
          rw [this]
          exact s1)
      (by rw [hp2]; exact s2)
    refine ⟨r1, ?_, ?_⟩
    · rw [r2, hp1, List.length_append, List.length_singleton, List.length_cons]
      omega
    · rw [hp2] at r3
      omega

/-- On the alphabet of `bpe.cpp` every code produced by the encoder is at most
5, there is one code per character, and the map does not shrink. -/
theorem convert_alphabet (dataset : String) :
    (∀ x ∈ (convert_to_vector alphabet dataset).1, x < 6) ∧
      (convert_to_vector alphabet dataset).1.length = dataset.length ∧
      6 ≤ (convert_to_vector alphabet dataset).2.length := by
  have h := convert_fold_spec 6 (by decide) dataset.data ([], alphabet)
    (fun x hx => absurd hx (List.not_mem_nil x))
    (by decide)
  refine ⟨h.1, ?_, h.2.2⟩
  have e : dataset.length = dataset.data.length := rfl
  rw [e]
  exact h.2.1.trans (Nat.zero_add _)

/-- The invariant holds throughout a run of `main` on the alphabet of
`bpe.cpp`. -/
theorem inv_main (dataset : String) (h64 : dataset.length < 2 ^ 64) (n : Nat) (s : State)
    (h : run n (init alphabet dataset) = Outcome.cont s ∨
      run n (init alphabet dataset) = Outcome.brk s) :
    Inv (convert_to_vector alphabet dataset).1
      ((convert_to_vector alphabet dataset).2.length + 1) s := by
  obtain ⟨c1, c2, c3⟩ := convert_alphabet dataset
  apply inv_run _ _ (by rw [c2]; exact h64) (by omega) _ n s h
  intro x hx
  have := c1 x hx
  omega

/-! ## Allocation of ids, for every alphabet -/

theorem round_cont_shape (s s1 : State) (h : round s = Outcome.cont s1) :
    ∃ rep, s1.merged = s.merged ++ [rep] ∧ s1.L = s.L + 1 ∧
      s1.tokens = assign s.tokens s.L rep := by
  unfold round at h
  split at h
  · exact Outcome.noConfusion h
  · simp only at h
    split at h
    · exact Outcome.noConfusion h
    · split at h
      · exact Outcome.noConfusion h
      · have e := Outcome.cont.inj h
        subst e
        exact ⟨_, rfl, rfl, rfl⟩

theorem lookup_none_of_not_mem {β : Type} (m : List (Nat × β)) (key : Nat)
    (h : key ∉ m.map Prod.fst) : m.lookup key = none := by
  induction m with
  | nil => rfl
  | cons e m ih =>
    obtain ⟨k, v⟩ := e
    rw [List.map_cons, List.mem_cons, not_or] at h
    rw [List.lookup_cons]
    have : (key == k) = false := by simpa using h.1
    rw [this]
    exact ih h.2

theorem idsOk_step (L0 : Nat) (s s1 : State) (hi : IdsOk L0 s)
    (h : round s = Outcome.cont s1) : IdsOk L0 s1 := by
  obtain ⟨rep, e1, e2, e3⟩ := round_cont_shape s s1 h
  obtain ⟨i1, i2, i3⟩ := hi
  have hfresh : s.tokens.lookup s.L = none := by
    apply lookup_none_of_not_mem
    rw [i2, i1, List.mem_range']
    rintro ⟨i, hi, he⟩
    omega
  refine ⟨?_, ?_, ?_⟩
  · rw [e2, e1, i1, List.length_append]
    rfl
  · rw [e3, e1, assign_fresh _ _ _ hfresh, List.map_append, i2, List.length_append,
      List.length_singleton, List.range'_concat, i1]
    simp
  · rw [e3, e1, assign_fresh _ _ _ hfresh, List.map_append, i3]
    rfl

theorem idsOk_run (L0 : Nat) :
    ∀ (n : Nat) (s0 s : State), IdsOk L0 s0 → run n s0 = Outcome.cont s →
      IdsOk L0 s ∧ s.merged.length = s0.merged.length + n := by
  intro n
  induction n with
  | zero =>
    intro s0 s h0 h
    have : s0 = s := Outcome.cont.inj h
    subst this
    exact ⟨h0, rfl⟩
  | succ n ih =>
    intro s0 s h0 h
    unfold run at h
    cases hr : round s0 with
    | brk s1 =>
      rw [hr] at h
      exact Outcome.noConfusion h
    | cont s1 =>
      rw [hr] at h
      simp only at h
      obtain ⟨a, b⟩ := ih s1 s (idsOk_step L0 s0 s1 h0 hr) h
      refine ⟨a, ?_⟩
      obtain ⟨rep, e1, _, _⟩ := round_cont_shape s0 s1 hr
      rw [b, e1, List.length_append, List.length_singleton]
      omega
    | fault =>
      rw [hr] at h
      exact Outcome.noConfusion h

/-! ## A round that finds no pair -/

theorem pairCount_zero_of_noPair (seq : List Nat) (h : NoPair seq) (i j : Nat) :
    pairCount seq i j = 0 := by
  unfold pairCount
  rw [List.length_eq_zero, List.filter_eq_nil_iff]
  intro p hp
  rw [List.mem_range] at hp
  rw [decide_eq_true_eq]
  rintro ⟨e1, e2, n1, n2⟩
  rcases h p hp with z | z
  · exact n1 (e1 ▸ z)
  · exact n2 (e2 ▸ z)

theorem greedy_zero (b L : Nat) (l : List Nat) : greedy 0 b L l = l := by
  induction l using greedy_induct 0 b with
  | h0 => rfl
  | h1 x => rfl
  | h2 x y rest hc ih => exact absurd hc.1 hc.2.2.1
  | h3 x y rest hc ih => rw [greedy, if_neg hc, ih]

/-- A round on a sequence without a pair of adjacent non-zero entries finds
`max_count = 0`, does not break, records the value-initialised pair `(0, 0)`
and leaves the sequence as it is. -/
theorem stuck_round (s : State) (h : Stuck s) :
    ∃ tr1, tr1.length = s.to_replace.length ∧
      round s = Outcome.cont
        { seq := s.seq
          merged := s.merged ++ [(0, 0)]
          L := s.L + 1
          tokens := assign s.tokens s.L (0, 0)
          rev_tokens := assign s.rev_tokens (0, 0) s.L
          to_replace := tr1 } := by
  obtain ⟨hne, hn, hL, hl, hp⟩ := h
  obtain ⟨c, tr1, sq, hc, lr, er⟩ := round_spec s (List.length_pos.2 hne) hn hL hl
  obtain ⟨_, s2, s3⟩ := select_spec c
  have hz : (select c).1 = 0 := by
    rcases Nat.eq_zero_or_pos (select c).1 with h | h
    · exact h
    · obtain ⟨_, e, _⟩ := s3 h
      rw [hc, pairCount_zero_of_noPair s.seq hp] at e
      exact e.symm
  have hrep := s2 hz
  refine ⟨tr1, lr, ?_⟩
  rw [er, if_neg (by rw [hz]; decide), hrep]
  simp only
  rw [greedy_zero]

theorem stuck_next (s s1 : State) (h : Stuck s) (hr : round s = Outcome.cont s1) :
    Stuck s1 ∧ s1.seq = s.seq := by
  obtain ⟨tr1, lr, er⟩ := stuck_round s h
  rw [er] at hr
  have e := Outcome.cont.inj hr
  subst e
  obtain ⟨hne, hn, hL, hl, hp⟩ := h
  refine ⟨⟨hne, hn, ?_, ?_, hp⟩, rfl⟩
  · intro x hx
    have := hL x hx
    show x < s.L + 1
    omega
  · show s.seq.length ≤ tr1.length
    omega

/-- From a stuck state the loop runs for any number of rounds, on the same
sequence, and never reaches `break`. -/
theorem stuck_run : ∀ (n : Nat) (s : State), Stuck s →
    (∃ s1, run n s = Outcome.cont s1 ∧ s1.seq = s.seq ∧ s1.merged.length = s.merged.length + n) ∧
      ∀ s1, run n s ≠ Outcome.brk s1 := by
  intro n
  induction n with
  | zero =>
    intro s _
    exact ⟨⟨s, rfl, rfl, rfl⟩, fun s1 h => Outcome.noConfusion h⟩
  | succ n ih =>
    intro s h
    obtain ⟨tr1, _, er⟩ := stuck_round s h
    have hs := (stuck_next s _ h er).1
    obtain ⟨⟨s2, r1, r2, r3⟩, r4⟩ := ih _ hs
    unfold run
    rw [er]
    refine ⟨⟨s2, r1, r2, ?_⟩, r4⟩
    rw [r3]
    simp only [List.length_append, List.length_singleton]
    omega

theorem mem_expand (tokens : List (Nat × kmer)) (fuel x y : Nat) (l : List Nat)
    (hx : x ∈ l) (hy : y ∈ expandTok tokens fuel x) : y ∈ expand tokens fuel l := by
  unfold expand
  rw [List.mem_flatten]
  exact ⟨expandTok tokens fuel x, List.mem_map.2 ⟨x, hx, rfl⟩, hy⟩

theorem pairCount_zero_left (seq : List Nat) (j : Nat) : pairCount seq 0 j = 0 := by
  unfold pairCount
  rw [List.length_eq_zero, List.filter_eq_nil_iff]
  intro p _
  rw [decide_eq_true_eq]
  rintro ⟨_, _, n1, _⟩
  exact n1 rfl

theorem pairCount_zero_right (seq : List Nat) (i : Nat) : pairCount seq i 0 = 0 := by
  unfold pairCount
  rw [List.length_eq_zero, List.filter_eq_nil_iff]
  intro p _
  rw [decide_eq_true_eq]
  rintro ⟨_, _, _, n2⟩
  exact n2 rfl

/-! ## The claims -/

/-- C1 (round trip): at the start of every round of a run of `main` on a
dataset, and at `break`, expanding the working sequence through the
TokenTable to any depth of at least `L` gives exactly the sequence that
`convert_to_vector` produced for the dataset, and no id of the expansion is a
key of the TokenTable (only base codes remain). -/
theorem roundtrip (dataset : String) (h64 : dataset.length < 2 ^ 64) (n : Nat) (s : State)
    (h : run n (init alphabet dataset) = Outcome.cont s ∨
      run n (init alphabet dataset) = Outcome.brk s)
    (fuel : Nat) (hf : s.L ≤ fuel) :
    expand s.tokens fuel s.seq = (convert_to_vector alphabet dataset).1 ∧
      ∀ x ∈ expand s.tokens fuel s.seq, s.tokens.lookup x = none := by
  have hi := inv_main dataset h64 n s h
  have he := hi.exp fuel hf
  refine ⟨he, ?_⟩
  intro x hx
  rw [he] at hx
  have := (convert_alphabet dataset).1 x hx
  have h6 := (convert_alphabet dataset).2.2
  exact hi.tok.1 x (by omega)

set_option maxRecDepth 100000 in
theorem roundtrip_witness :
    expand finalACGT.tokens 10 finalACGT.seq =
        (convert_to_vector alphabet "ACGTACGT~ACGTAC").1 ∧
      ∀ x ∈ expand finalACGT.tokens 10 finalACGT.seq, finalACGT.tokens.lookup x = none :=
  roundtrip "ACGTACGT~ACGTAC" (by decide) 4 finalACGT (Or.inr (by decide)) 10 (by decide)

/-- The ids of a run, for every alphabet and dataset: after `n` rounds that did
not reach `break` the MergeList has `n` entries and the TokenTable holds, in
the order of the merges, the `n` consecutive ids that start at the value `L`
had when the loop was entered, each with the pair recorded in the MergeList at
its position. -/
theorem ids_in_order (al : Alphabet) (dataset : String) (n : Nat) (s : State)
    (h : run n (init al dataset) = Outcome.cont s) :
    s.merged.length = n ∧
      s.L = (convert_to_vector al dataset).2.length + 1 + n ∧
      s.tokens.map Prod.fst = List.range' ((convert_to_vector al dataset).2.length + 1) n ∧
      s.tokens.map Prod.snd = s.merged ∧
      ∀ m, m < n →
        (s.tokens.map Prod.fst)[m]? = some ((convert_to_vector al dataset).2.length + 1 + m) := by
  have h0 : IdsOk ((convert_to_vector al dataset).2.length + 1) (init al dataset) :=
    ⟨rfl, rfl, rfl⟩
  obtain ⟨⟨i1, i2, i3⟩, hl⟩ := idsOk_run _ n (init al dataset) s h0 h
  have hn : s.merged.length = n := by
    rw [hl]
    exact Nat.zero_add n
  rw [hn] at i1 i2
  refine ⟨hn, i1, i2, i3, ?_⟩
  intro m hm
  rw [i2, List.getElem?_range' _ _ hm]
  simp

set_option maxRecDepth 100000 in
/-- C2, as the claim has it, fails on the scenario of the specification: with
alphabet `~:0, A:1` there is `K = 1` non-sentinel symbol, and the first merge
of the dataset `AAAA`, the pair `(1, 1)`, is given id 3, which is not
`K + 1 = 2`.  On the alphabet of `bpe.cpp`, with `K = 5`, the same dataset
gives the first merge id 7, which is not `K + 1 = 6`. -/
theorem mint_ids_counterexample :
    nonSentinel scenarioAlphabet = 1 ∧
      round (init scenarioAlphabet "AAAA") = Outcome.cont scenarioRound1 ∧
      scenarioRound1.merged = [(1, 1)] ∧
      scenarioRound1.tokens = [(3, (1, 1))] ∧
      ¬ (scenarioRound1.tokens.map Prod.fst = [nonSentinel scenarioAlphabet + 1]) ∧
      nonSentinel alphabet = 5 ∧
      ∃ s, round (init alphabet "AAAA") = Outcome.cont s ∧ s.tokens = [(7, (1, 1))] := by
  refine ⟨by decide, by decide, by decide, by decide, by decide, by decide, ?_⟩
  exact ⟨afterAAAA, by decide, rfl⟩

set_option maxRecDepth 100000 in
/-- C3 fails on the code: on the dataset `AA~AA` the first round merges
`(1, 1)` and leaves `[7, 0, 7]`; every later round finds `max_count = 0`, so
for every number of rounds the loop is still running, on that sequence, and
has not reached `break`. -/
theorem no_break_AA (n : Nat) :
    (∃ s, run (n + 1) (init alphabet "AA~AA") = Outcome.cont s ∧ s.seq = [7, 0, 7] ∧
        s.merged.length = n + 1) ∧
      ∀ s, run n (init alphabet "AA~AA") ≠ Outcome.brk s := by
  have hr : round (init alphabet "AA~AA") = Outcome.cont afterAA := by decide
  have hs : Stuck afterAA := ⟨by decide, by decide, by decide, by decide, by decide⟩
  have hrun : ∀ m, run (m + 1) (init alphabet "AA~AA") = run m afterAA := by
    intro m
    rw [run, hr]
  constructor
  · obtain ⟨⟨s, r1, r2, r3⟩, _⟩ := stuck_run n afterAA hs
    refine ⟨s, ?_, r2, ?_⟩
    · rw [hrun, r1]
    · rw [r3]
      exact Nat.add_comm _ _
  · intro s
    cases n with
    | zero => exact fun h => Outcome.noConfusion h
    | succ m =>
      rw [hrun]
      exact (stuck_run m afterAA hs).2 s

set_option maxRecDepth 100000 in
/-- C4 fails on the code: on the empty dataset the first round reads `seq[0]`
out of bounds (the bound `seq.size() - k + 1` wraps to `2 ^ 64 - 1`); on the
one-symbol dataset `A` the first round does not terminate the loop but records
the pair `(0, 0)` in the MergeList and the TokenTable, and the loop never
reaches `break`. -/
theorem degenerate_input :
    loopBound 0 = 2 ^ 64 - 1 ∧
      round (init alphabet "") = Outcome.fault ∧
      round (init alphabet "A") = Outcome.cont afterA ∧
      ∀ n s, run n (init alphabet "A") ≠ Outcome.brk s := by
  have hr : round (init alphabet "A") = Outcome.cont afterA := by decide
  have hs : Stuck afterA := ⟨by decide, by decide, by decide, by decide, by decide⟩
  refine ⟨loopBound_zero, by decide, hr, ?_⟩
  intro n s
  cases n with
  | zero => exact fun h => Outcome.noConfusion h
  | succ m =>
    rw [run, hr]
    exact (stuck_run m afterA hs).2 s

set_option maxRecDepth 100000 in
/-- C5 fails on the code: on the dataset `AC~AC` the second round finds
`max_count = 0` and appends the pair `(0, 0)`, both of whose elements are the
sentinel code, to the MergeList and to the TokenTable under id 8. -/
theorem sentinel_pair_recorded :
    run 2 (init alphabet "AC~AC") = Outcome.cont afterACAC ∧
      afterACAC.merged = [(1, 2), (0, 0)] ∧
      afterACAC.tokens = [(7, (1, 2)), (8, (0, 0))] := by
  decide

/-- C6 (record boundaries): at the start of every round of a run of `main` on
a dataset, and at `break`, the working sequence has as many 0 entries as the
encoded dataset, and every non-zero id of the working sequence expands through
the TokenTable to ids that are non-zero base codes (at most 5, not keys of the
TokenTable). -/
theorem boundaries_preserved (dataset : String) (h64 : dataset.length < 2 ^ 64) (n : Nat)
    (s : State)
    (h : run n (init alphabet dataset) = Outcome.cont s ∨
      run n (init alphabet dataset) = Outcome.brk s) :
    s.seq.count 0 = (convert_to_vector alphabet dataset).1.count 0 ∧
      ∀ x ∈ s.seq, x ≠ 0 → ∀ y ∈ expandTok s.tokens s.L x,
        y ≠ 0 ∧ y < 6 ∧ s.tokens.lookup y = none := by
  have hi := inv_main dataset h64 n s h
  refine ⟨hi.zeros, ?_⟩
  intro x hx hx0 y hy
  have hm := mem_expand s.tokens s.L x y s.seq hx hy
  rw [hi.exp s.L (le_refl _)] at hm
  have h6 := (convert_alphabet dataset).1 y hm
  have h7 := (convert_alphabet dataset).2.2
  exact ⟨hi.nz x hx hx0 y hy, h6, hi.tok.1 y (by omega)⟩

set_option maxRecDepth 100000 in
theorem boundaries_preserved_witness :
    finalACGT.seq.count 0 = (convert_to_vector alphabet "ACGTACGT~ACGTAC").1.count 0 ∧
      ∀ x ∈ finalACGT.seq, x ≠ 0 → ∀ y ∈ expandTok finalACGT.tokens finalACGT.L x,
        y ≠ 0 ∧ y < 6 ∧ finalACGT.tokens.lookup y = none :=
  boundaries_preserved "ACGTACGT~ACGTAC" (by decide) 4 finalACGT (Or.inr (by decide))

/-- C7 (MergeSelector): on a table with a positive entry among the cells with
row and column index at least 1, the selected pair has both indices at least 1
and inside the table, `max_count` is its count, no cell with both indices at
least 1 has a larger count, and every such cell that comes before it in
row-major order has a strictly smaller count; when row 0 and column 0 hold
only zeros, as in every table the counting loop builds, this is so for every
cell of the table that comes before it. -/
theorem select_first_maximum (c : Table) (h : ∃ i j, Scanned c i j ∧ 0 < cell c i j) :
    1 ≤ (select c).2.1 ∧ 1 ≤ (select c).2.2 ∧
      (select c).2.1 < c.length ∧ (select c).2.2 < (c.getD (select c).2.1 []).length ∧
      cell c (select c).2.1 (select c).2.2 = (select c).1 ∧
      (∀ i j, Scanned c i j → cell c i j ≤ cell c (select c).2.1 (select c).2.2) ∧
      (∀ i j, Scanned c i j → Before (select c).2.1 (select c).2.2 i j →
        cell c i j < cell c (select c).2.1 (select c).2.2) ∧
      ((∀ k, cell c 0 k = 0 ∧ cell c k 0 = 0) →
        ∀ i j, i < c.length → j < (c.getD i []).length →
          Before (select c).2.1 (select c).2.2 i j →
          cell c i j < cell c (select c).2.1 (select c).2.2) := by
  obtain ⟨s1, _, s3⟩ := select_spec c
  obtain ⟨i, j, hs, hpos⟩ := h
  have hmax : 0 < (select c).1 := lt_of_lt_of_le hpos (s1 i j hs)
  obtain ⟨⟨a1, a2, a3, a4⟩, e, hb⟩ := s3 hmax
  refine ⟨a1, a3, a2, a4, e, ?_, ?_, ?_⟩
  · intro i j hs
    rw [e]
    exact s1 i j hs
  · intro i j hs hbf
    rw [e]
    exact hb i j hs hbf
  · intro hz i j hi hj hbf
    rw [e]
    rcases Nat.eq_zero_or_pos i with i0 | ipos
    · rw [i0, (hz j).1]
      exact hmax
    · rcases Nat.eq_zero_or_pos j with j0 | jpos
      · rw [j0, (hz i).2]
        exact hmax
      · exact hb i j ⟨ipos, hi, jpos, hj⟩ hbf

theorem select_first_maximum_witness :
    1 ≤ (select exampleTable).2.1 ∧ 1 ≤ (select exampleTable).2.2 ∧
      (select exampleTable).2.1 < exampleTable.length ∧
      (select exampleTable).2.2 < (exampleTable.getD (select exampleTable).2.1 []).length ∧
      cell exampleTable (select exampleTable).2.1 (select exampleTable).2.2 =
        (select exampleTable).1 ∧
      (∀ i j, Scanned exampleTable i j →
        cell exampleTable i j ≤
          cell exampleTable (select exampleTable).2.1 (select exampleTable).2.2) ∧
      (∀ i j, Scanned exampleTable i j →
        Before (select exampleTable).2.1 (select exampleTable).2.2 i j →
        cell exampleTable i j <
          cell exampleTable (select exampleTable).2.1 (select exampleTable).2.2) ∧
      ((∀ k, cell exampleTable 0 k = 0 ∧ cell exampleTable k 0 = 0) →
        ∀ i j, i < exampleTable.length → j < (exampleTable.getD i []).length →
          Before (select exampleTable).2.1 (select exampleTable).2.2 i j →
          cell exampleTable i j <
            cell exampleTable (select exampleTable).2.1 (select exampleTable).2.2) :=
  select_first_maximum exampleTable
    ⟨1, 1, ⟨by decide, by decide, by decide, by decide⟩, by decide⟩

/-- C8 (PairFrequencyCounter): for a non-empty working sequence with entries
below `L`, the counting loop makes no out-of-bounds access and builds an
`L × L` table whose entry `(i, j)` is the number of positions `p` in
`[0, N-2]` with `seq[p] = i`, `seq[p+1] = j`, `i ≠ 0` and `j ≠ 0`; row 0 and
column 0 hold only zeros. -/
theorem count_table (seq : List Nat) (L : Nat) (hne : seq ≠ []) (h64 : seq.length < 2 ^ 64)
    (hL : ∀ x ∈ seq, x < L) :
    ∃ c, countLoop seq (loopBound seq.length) (loopBound seq.length) 0 (mkTable L) = some c ∧
      c.length = L ∧ (∀ i, i < L → (c.getD i []).length = L) ∧
      (∀ i j, i < L → j < L → cell c i j = pairCount seq i j) ∧
      ∀ k, k < L → cell c 0 k = 0 ∧ cell c k 0 = 0 := by
  obtain ⟨c, ec, sq, hc⟩ := count_spec seq L (List.length_pos.2 hne) h64 hL
  refine ⟨c, ec, sq.1, sq.2, fun i j _ _ => hc i j, ?_⟩
  intro k _
  rw [hc, hc, pairCount_zero_left, pairCount_zero_right]
  exact ⟨rfl, rfl⟩

theorem count_table_witness :
    ∃ c, countLoop [1, 1, 0, 1, 1, 2] (loopBound [1, 1, 0, 1, 1, 2].length)
        (loopBound [1, 1, 0, 1, 1, 2].length) 0 (mkTable 3) = some c ∧
      c.length = 3 ∧ (∀ i, i < 3 → (c.getD i []).length = 3) ∧
      (∀ i j, i < 3 → j < 3 → cell c i j = pairCount [1, 1, 0, 1, 1, 2] i j) ∧
      ∀ k, k < 3 → cell c 0 k = 0 ∧ cell c k 0 = 0 :=
  count_table [1, 1, 0, 1, 1, 2] 3 (by decide) (by decide) (by decide)

/-- On the empty sequence the bound of the marking loop wraps to `2 ^ 64 - 1`
and its first iteration reads `seq[0]` out of bounds: the two passes produce
no sequence.  In `main` the counting loop of the same round, which has the same
bound, comes first. -/
theorem rewritePass_nil :
    rewritePass [] (1, 1) 7 [] = none ∧ greedy 1 1 7 [] = [] := by
  decide

set_option maxRecDepth 100000 in
/-- C10 fails on the code: on the dataset `AAA~AAA` the third round finds
`max_count = 0`, records a merge (the pair `(0, 0)` under the new id 9), emits
the new id 0 times and leaves the length of the working sequence at 3. -/
theorem merge_without_shrink :
    run 2 (init alphabet "AAA~AAA") = Outcome.cont afterAAA2 ∧
      round afterAAA2 = Outcome.cont afterAAA3 ∧
      afterAAA3.merged = afterAAA2.merged ++ [(0, 0)] ∧
      afterAAA3.tokens = afterAAA2.tokens ++ [(afterAAA2.L, (0, 0))] ∧
      afterAAA3.seq.count afterAAA2.L = 0 ∧
      afterAAA3.seq.length = afterAAA2.seq.length := by
  decide

/-! ## Rounds of a run of `main` -/

theorem countLoop_nil (L : Nat) :
    countLoop [] (loopBound ([] : List Nat).length) (loopBound ([] : List Nat).length) 0
      (mkTable L) = none := by
  apply countLoop_oob
  · rw [List.length_nil, loopBound_zero]
    decide
  · rw [List.length_nil, loopBound_zero]
    decide
  · rfl

theorem maxCount_ne_nil (s : State) (m : Nat) (h : maxCount s = some m) : s.seq ≠ [] := by
  intro e
  unfold maxCount at h
  rw [e, countLoop_nil] at h
  exact Option.noConfusion h

/-- A round leaves through `break` exactly when it finds `max_count = 1`, and
then with the state it started from. -/
theorem round_brk_iff (s s1 : State) :
    round s = Outcome.brk s1 ↔ maxCount s = some 1 ∧ s1 = s := by
  unfold round maxCount
  cases hc : countLoop s.seq (loopBound s.seq.length) (loopBound s.seq.length) 0 (mkTable s.L) with
  | none =>
    simp only [Option.map_none']
    constructor
    · intro h; exact Outcome.noConfusion h
    · intro h; exact Option.noConfusion h.1
  | some c =>
    simp only [Option.map_some', Option.some.injEq]
    by_cases h1 : (select c).1 = 1
    · rw [if_pos h1]
      constructor
      · intro h
        exact ⟨h1, (Outcome.brk.inj h).symm⟩
      · intro h
        rw [h.2]
    · rw [if_neg h1]
      constructor
      · intro h
        split at h <;> exact Outcome.noConfusion h
      · intro h
        exact absurd h.1 h1

/-- A round from a state that satisfies the invariant, on a non-empty
sequence. -/
theorem round_inv (seq0 : List Nat) (L0 : Nat) (h64 : seq0.length < 2 ^ 64) (s : State)
    (hi : Inv seq0 L0 s) (hne : s.seq ≠ []) :
    ∃ c tr1, maxCount s = some (select c).1 ∧ selected s = some (select c).2 ∧
      Square c s.L ∧ (∀ i j, cell c i j = pairCount s.seq i j) ∧
      tr1.length = s.to_replace.length ∧
      round s =
        if (select c).1 = 1 then Outcome.brk s
        else Outcome.cont
          { seq := greedy (select c).2.1 (select c).2.2 s.L s.seq
            merged := s.merged ++ [(select c).2]
            L := s.L + 1
            tokens := s.tokens ++ [(s.L, (select c).2)]
            rev_tokens := assign s.rev_tokens (select c).2 s.L
            to_replace := tr1 } := by
  have h0 : 0 < s.seq.length := List.length_pos.2 hne
  have hn : s.seq.length < 2 ^ 64 := lt_of_le_of_lt hi.len_le h64
  obtain ⟨c, ec, sq, hc⟩ := count_spec s.seq s.L h0 hn hi.lt_L
  obtain ⟨tr1, er, lr⟩ := rewrite_eq_greedy s.seq (select c).2.1 (select c).2.2 s.L
    s.to_replace h0 hn (by rw [hi.tr_len]; exact hi.len_le)
  have hmax : maxCount s = some (select c).1 := by
    unfold maxCount
    rw [ec]
    rfl
  have hsel : selected s = some (select c).2 := by
    unfold selected
    rw [ec]
    rfl
  refine ⟨c, tr1, hmax, hsel, sq, hc, lr, ?_⟩
  have hfresh := hi.tok.2.1 s.L (le_refl _)
  unfold round
  rw [ec]
  simp only
  by_cases h1 : (select c).1 = 1
  · rw [if_pos h1, if_pos h1]
  · rw [if_neg h1, if_neg h1]
    have hrep : ((select c).2.1, (select c).2.2) = (select c).2 := rfl
    rw [hrep] at er
    rw [er, assign_fresh _ _ _ hfresh]

/-- Along a run that starts from a non-empty sequence the invariant holds and
the working sequence stays non-empty. -/
theorem inv_ne_nil_run (seq0 : List Nat) (L0 : Nat) (h64 : seq0.length < 2 ^ 64)
    (hL0 : 0 < L0) (hlt : ∀ x ∈ seq0, x < L0) (hne : seq0 ≠ []) (n : Nat) (s : State)
    (h : run n (start seq0 L0) = Outcome.cont s ∨ run n (start seq0 L0) = Outcome.brk s) :
    Inv seq0 L0 s ∧ s.seq ≠ [] := by
  refine run_induct (fun s => Inv seq0 L0 s ∧ s.seq ≠ []) ?_ n (start seq0 L0) s
    ⟨inv_start seq0 L0 hlt, hne⟩ h
  intro s s1 hp hr
  refine ⟨inv_step seq0 L0 h64 hL0 s s1 hp.1 hr, ?_⟩
  obtain ⟨_, c, _, _, _, e1, _⟩ :=
    round_cont_spec s s1 (lt_of_le_of_lt hp.1.len_le h64) hp.1.lt_L
      (by rw [hp.1.tr_len]; exact hp.1.len_le) hr
  rw [e1]
  exact greedy_ne_nil _ _ _ _ hp.2

theorem convert_ne_nil (dataset : String) (hne : dataset ≠ "") :
    (convert_to_vector alphabet dataset).1 ≠ [] := by
  intro e
  have hl := (convert_alphabet dataset).2.1
  rw [e] at hl
  apply hne
  have hd : dataset.data = [] := List.length_eq_zero.1 hl.symm
  cases dataset with
  | mk d =>
    simp only at hd
    rw [hd]

/-- The invariant and non-emptiness along a run of `main` on a non-empty
dataset. -/
theorem inv_main_ne (dataset : String) (hne : dataset ≠ "") (h64 : dataset.length < 2 ^ 64)
    (n : Nat) (s : State)
    (h : run n (init alphabet dataset) = Outcome.cont s ∨
      run n (init alphabet dataset) = Outcome.brk s) :
    Inv (convert_to_vector alphabet dataset).1
        ((convert_to_vector alphabet dataset).2.length + 1) s ∧ s.seq ≠ [] := by
  obtain ⟨c1, c2, c3⟩ := convert_alphabet dataset
  apply inv_ne_nil_run _ _ (by rw [c2]; exact h64) (by omega) _ (convert_ne_nil dataset hne) n s h
  intro x hx
  have := c1 x hx
  omega

/-- The key `L` is not in the TokenTable when the ids were allocated in
order. -/
theorem idsOk_fresh (L0 : Nat) (s : State) (hi : IdsOk L0 s) : s.tokens.lookup s.L = none := by
  obtain ⟨i1, i2, _⟩ := hi
  apply lookup_none_of_not_mem
  rw [i2, i1, List.mem_range']
  rintro ⟨i, hi, he⟩
  omega

/-! ## The claims, continued -/

/-- C11 (termination policy): in every round of a run of `main` on a dataset,
the round leaves through `break` if and only if the maximum pair count it
finds equals 1, and then the state at `break` (MergeList, TokenTable, working
sequence, next id) is the state at the start of the round; if the maximum
count is greater than 1 the round does not break, appends exactly the selected
pair to the MergeList, adds exactly the entry (next id, selected pair) to the
TokenTable, in which the next id was not a key, and increments the next id by
one. -/
theorem termination_policy (dataset : String) (h64 : dataset.length < 2 ^ 64) (n : Nat)
    (s : State) (h : run n (init alphabet dataset) = Outcome.cont s) :
    (∀ s1, round s = Outcome.brk s1 ↔ maxCount s = some 1 ∧ s1 = s) ∧
      ∀ m, maxCount s = some m → 1 < m →
        ∃ s1 rep, selected s = some rep ∧ round s = Outcome.cont s1 ∧
          s1.merged = s.merged ++ [rep] ∧
          s1.tokens = s.tokens ++ [(s.L, rep)] ∧
          s.tokens.lookup s.L = none ∧
          s1.L = s.L + 1 := by
  refine ⟨fun s1 => round_brk_iff s s1, ?_⟩
  intro m hm h1
  have hi := inv_main dataset h64 n s (Or.inl h)
  have hne := maxCount_ne_nil s m hm
  obtain ⟨c, tr1, e1, e2, _, _, _, er⟩ :=
    round_inv _ _ (by rw [(convert_alphabet dataset).2.1]; exact h64) s hi hne
  rw [e1] at hm
  have hm1 : (select c).1 = m := Option.some.inj hm
  rw [if_neg (by omega)] at er
  exact ⟨_, (select c).2, e2, er, rfl, rfl, hi.tok.2.1 s.L (le_refl _), rfl⟩

set_option maxRecDepth 100000 in
theorem termination_policy_witness :
    (∀ s1, round afterAAAA = Outcome.brk s1 ↔ maxCount afterAAAA = some 1 ∧ s1 = afterAAAA) ∧
      ∀ m, maxCount afterAAAA = some m → 1 < m →
        ∃ s1 rep, selected afterAAAA = some rep ∧ round afterAAAA = Outcome.cont s1 ∧
          s1.merged = afterAAAA.merged ++ [rep] ∧
          s1.tokens = afterAAAA.tokens ++ [(afterAAAA.L, rep)] ∧
          afterAAAA.tokens.lookup afterAAAA.L = none ∧
          s1.L = afterAAAA.L + 1 :=
  termination_policy "AAAA" (by decide) 1 afterAAAA (by decide)

theorem lookup_mem {β : Type} (m : List (String × β)) (key : String) (v : β)
    (h : m.lookup key = some v) : (key, v) ∈ m := by
  induction m with
  | nil => exact Option.noConfusion h
  | cons e m ih =>
    obtain ⟨k, w⟩ := e
    rw [List.lookup_cons] at h
    by_cases hk : key == k
    · rw [hk] at h
      have e1 : key = k := by simpa using hk
      have e2 : w = v := Option.some.inj h
      rw [e1, e2]
      exact List.mem_cons_self _ _
    · simp only [hk] at h
      exact List.mem_cons_of_mem _ (ih h)

/-- A lookup with `operator[]` in an alphabet that was extended by entries
with code 0 gives the code of the original alphabet, and extends the alphabet
by at most one more entry with code 0. -/
theorem subscript_extra (al extra : Alphabet) (hz : ∀ e ∈ extra, e.2 = 0) (ch : Char) :
    to_size_t (subscript (al ++ extra) (String.singleton ch)).1 = codeOf al ch ∧
      ∃ extra1, (subscript (al ++ extra) (String.singleton ch)).2 = al ++ extra1 ∧
        (∀ e ∈ extra1, e.2 = 0) ∧ extra.length ≤ extra1.length := by
  unfold subscript codeOf
  rw [List.lookup_append]
  cases h1 : al.lookup (String.singleton ch) with
  | some v =>
    simp only [Option.or_some]
    exact ⟨trivial, extra, rfl, hz, le_refl _⟩
  | none =>
    simp only [Option.none_or]
    cases h2 : extra.lookup (String.singleton ch) with
    | some w =>
      have hw : w = 0 := hz _ (lookup_mem extra _ w h2)
      subst hw
      refine ⟨?_, extra, ?_, hz, le_refl _⟩
      · rfl
      · rfl
    | none =>
      refine ⟨?_, extra ++ [(String.singleton ch, 0)], ?_, ?_, by simp⟩
      · rfl
      · exact List.append_assoc _ _ _
      · intro e he
        rcases List.mem_append.1 he with he | he
        · exact hz e he
        · have : e = (String.singleton ch, 0) := by simpa using he
          rw [this]

theorem convert_fold_codes (al : Alphabet) :
    ∀ (l : List Char) (acc : List Nat) (extra : Alphabet), (∀ e ∈ extra, e.2 = 0) →
      (l.foldl pushCode (acc, al ++ extra)).1 = acc ++ l.map (codeOf al) ∧
      ∃ extra1, (l.foldl pushCode (acc, al ++ extra)).2 = al ++ extra1 ∧
        (∀ e ∈ extra1, e.2 = 0) := by
  intro l
  induction l with
  | nil =>
    intro acc extra hz
    exact ⟨by simp, extra, rfl, hz⟩
  | cons ch l ih =>
    intro acc extra hz
    rw [List.foldl_cons]
    obtain ⟨s1, extra1, s2, s3, _⟩ := subscript_extra al extra hz ch
    have hp : pushCode (acc, al ++ extra) ch = (acc ++ [codeOf al ch], al ++ extra1) := by
      unfold pushCode
      rw [s1, s2]
    rw [hp]
    obtain ⟨r1, r2⟩ := ih (acc ++ [codeOf al ch]) extra1 s3
    refine ⟨?_, r2⟩
    rw [r1]
    simp

/-- The encoder maps every character to its alphabet code, 0 for a character
that is not a key, and leaves the alphabet extended by entries with code 0. -/
theorem convert_codes (al : Alphabet) (dataset : String) :
    (convert_to_vector al dataset).1 = dataset.data.map (codeOf al) ∧
      ∃ extra, (convert_to_vector al dataset).2 = al ++ extra ∧ ∀ e ∈ extra, e.2 = 0 := by
  have h := convert_fold_codes al dataset.data [] [] (fun e he => absurd he (List.not_mem_nil e))
  rw [List.append_nil] at h
  unfold convert_to_vector
  refine ⟨?_, h.2⟩
  rw [h.1]
  rfl

/-- On a dataset all of whose characters are keys, the encoder leaves the
alphabet as it was. -/
theorem convert_keys_unchanged (al : Alphabet) (dataset : String)
    (h : ∀ ch ∈ dataset.data, al.lookup (String.singleton ch) ≠ none) :
    (convert_to_vector al dataset).2 = al := by
  have key : ∀ (l : List Char) (acc : List Nat),
      (∀ ch ∈ l, al.lookup (String.singleton ch) ≠ none) →
      (l.foldl pushCode (acc, al)).2 = al := by
    intro l
    induction l with
    | nil => intro acc _; rfl
    | cons ch l ih =>
      intro acc hl
      rw [List.foldl_cons]
      have hs : (subscript al (String.singleton ch)).2 = al := by
        unfold subscript
        cases hk : al.lookup (String.singleton ch) with
        | none => exact absurd hk (hl ch (List.mem_cons_self _ _))
        | some v => rfl
      have hp : pushCode (acc, al) ch =
          (acc ++ [to_size_t (subscript al (String.singleton ch)).1], al) := by
        unfold pushCode
        rw [hs]
      rw [hp]
      exact ih _ (fun c hc => hl c (List.mem_cons_of_mem _ hc))
  exact key dataset.data [] h

theorem singleton_beq (ch d : Char) :
    (String.singleton ch == String.singleton d) = decide (ch = d) := by
  by_cases h : ch = d
  · subst h
    simp
  · have : String.singleton ch ≠ String.singleton d := by
      intro e
      apply h
      have := congrArg String.data e
      simpa [String.singleton] using this
    simp [h, this]

/-- The codes of the alphabet of `bpe.cpp`, character by character. -/
theorem codeOf_alphabet (ch : Char) :
    codeOf alphabet ch =
      if ch = 'A' then 1 else if ch = 'C' then 2 else if ch = 'G' then 3
      else if ch = 'T' then 4 else if ch = 'N' then 5 else 0 := by
  have hA : ("A" : String) = String.singleton 'A' := rfl
  have hC : ("C" : String) = String.singleton 'C' := rfl
  have hG : ("G" : String) = String.singleton 'G' := rfl
  have hT : ("T" : String) = String.singleton 'T' := rfl
  have hN : ("N" : String) = String.singleton 'N' := rfl
  have hS : ("~" : String) = String.singleton '~' := rfl
  unfold codeOf alphabet
  rw [hA, hC, hG, hT, hN, hS]
  simp only [List.lookup_cons, singleton_beq, List.lookup_nil]
  by_cases a : ch = 'A'
  · simp [a, to_size_t]
  by_cases c : ch = 'C'
  · simp [c, to_size_t]
  by_cases g : ch = 'G'
  · simp [g, to_size_t]
  by_cases t : ch = 'T'
  · simp [t, to_size_t]
  by_cases n : ch = 'N'
  · simp [n, to_size_t]
  by_cases z : ch = '~'
  · simp [z, to_size_t]
  simp [a, c, g, t, n, z]

/-- C12 (SequenceEncoder): for every dataset, `convert_to_vector` on the
alphabet of `bpe.cpp` returns a sequence of the length of the dataset whose
elements are, in order, the alphabet codes of its characters: 1 for `A`, 2 for
`C`, 3 for `G`, 4 for `T`, 5 for `N`, 0 for `~`, and 0 for every character that
is not a key of the alphabet. -/
theorem encoder_codes (dataset : String) :
    (convert_to_vector alphabet dataset).1.length = dataset.length ∧
      (convert_to_vector alphabet dataset).1 = dataset.data.map (codeOf alphabet) ∧
      (∀ ch, codeOf alphabet ch =
        if ch = 'A' then 1 else if ch = 'C' then 2 else if ch = 'G' then 3
        else if ch = 'T' then 4 else if ch = 'N' then 5 else 0) ∧
      ∀ ch, alphabet.lookup (String.singleton ch) = none → codeOf alphabet ch = 0 := by
  refine ⟨(convert_alphabet dataset).2.1, (convert_codes alphabet dataset).1,
    codeOf_alphabet, ?_⟩
  intro ch h
  unfold codeOf
  rw [h]

set_option maxRecDepth 100000 in
/-- C13 fails on the code: the dataset `AXA` has the character `X`, which is
not a key; `alphabet[...]` inserts the entry `X:0`, so after
`convert_to_vector` the alphabet has 7 entries instead of 6 and the first
value of `L` is 8, where a dataset over the keys, such as `AAA`, gives 7. -/
theorem alphabet_mutated :
    (convert_to_vector alphabet "AXA").2 = alphabet ++ [("X", 0)] ∧
      (convert_to_vector alphabet "AXA").2 ≠ alphabet ∧
      (convert_to_vector alphabet "AXA").2.length = 7 ∧
      alphabet.length = 6 ∧
      (init alphabet "AXA").L = 8 ∧
      (init alphabet "AAA").L = 7 := by
  decide

/-! ## The record reader -/

theorem tabFields_ne_nil (line : List Char) : tabFields line ≠ [] := by
  cases line with
  | nil => simp [tabFields]
  | cons c rest =>
    unfold tabFields
    by_cases h : c = '\t'
    · simp [h]
    · rw [if_neg h]
      cases tabFields rest <;> simp

theorem find_none (line : List Char) (h : find '\t' line = none) : tabFields line = [line] := by
  induction line with
  | nil => rfl
  | cons c rest ih =>
    unfold find at h
    by_cases hc : c = '\t'
    · rw [if_pos hc] at h
      exact Option.noConfusion h
    · rw [if_neg hc] at h
      have hr : find '\t' rest = none := by
        cases hf : find '\t' rest with
        | none => rfl
        | some p => rw [hf] at h; exact Option.noConfusion h
      unfold tabFields
      rw [if_neg hc, ih hr]

theorem find_some (line : List Char) (pos : Nat) (h : find '\t' line = some pos) :
    pos < line.length ∧
      tabFields line = line.take pos :: tabFields (line.drop (pos + 1)) := by
  induction line generalizing pos with
  | nil => exact Option.noConfusion h
  | cons c rest ih =>
    unfold find at h
    by_cases hc : c = '\t'
    · rw [if_pos hc] at h
      have hp : pos = 0 := (Option.some.inj h).symm
      subst hp
      refine ⟨by simp, ?_⟩
      rw [tabFields, if_pos hc]
      rfl
    · rw [if_neg hc] at h
      cases hf : find '\t' rest with
      | none => rw [hf] at h; exact Option.noConfusion h
      | some p =>
        rw [hf] at h
        have hp : pos = p + 1 := (Option.some.inj h).symm
        subst hp
        obtain ⟨h1, h2⟩ := ih p hf
        refine ⟨by simp; omega, ?_⟩
        rw [tabFields, if_neg hc, h2]
        rfl

/-- The inner loop of `get_sequences` stores every tab-separated field of the
line except the last one. -/
theorem splitLoop_spec :
    ∀ (fuel : Nat) (line : List Char) (d : List String), line.length < fuel →
      splitLoop fuel line d = d ++ (tabFields line).dropLast.map String.mk := by
  intro fuel
  induction fuel with
  | zero => intro line d h; omega
  | succ fuel ih =>
    intro line d h
    unfold splitLoop
    cases hf : find '\t' line with
    | none =>
      rw [find_none line hf]
      simp
    | some pos =>
      obtain ⟨h1, h2⟩ := find_some line pos hf
      simp only
      rw [ih _ _ (by simp; omega), h2,
        List.dropLast_cons_of_ne_nil (tabFields_ne_nil _)]
      simp

/-- The read of `d[14]` for a line, in terms of its tab-separated fields: it
is in bounds exactly when the line has at least 16 fields, that is at least 15
tab characters, and then it reads field 14. -/
theorem fieldOfLine_spec (line : String) :
    fieldOfLine line = ((tabFields line.data).dropLast.map String.mk).get? 14 ∧
      ((fieldOfLine line).isSome ↔ 16 ≤ (tabFields line.data).length) ∧
      ∀ f, fieldOfLine line = some f →
        ((tabFields line.data).map String.mk).get? 14 = some f := by
  have h : fieldOfLine line = ((tabFields line.data).dropLast.map String.mk).get? 14 := by
    have e : line.length = line.data.length := rfl
    unfold fieldOfLine
    rw [splitLoop_spec _ _ _ (by rw [e]; exact Nat.lt_succ_self _), List.nil_append]
  refine ⟨h, ?_, ?_⟩
  · rw [h, List.get?_eq_getElem?, Option.isSome_iff_exists]
    constructor
    · rintro ⟨f, hf⟩
      obtain ⟨hlt, _⟩ := List.getElem?_eq_some.1 hf
      simp only [List.length_map, List.length_dropLast] at hlt
      omega
    · intro hge
      have hlt : 14 < ((tabFields line.data).dropLast.map String.mk).length := by
        simp only [List.length_map, List.length_dropLast]
        omega
      exact ⟨_, List.getElem?_eq_getElem hlt⟩
  · intro f hf
    rw [h, List.get?_eq_getElem?] at hf
    rw [List.get?_eq_getElem?]
    obtain ⟨hlt, he⟩ := List.getElem?_eq_some.1 hf
    have hlt2 : 14 < (tabFields line.data).length := by
      simp only [List.length_map, List.length_dropLast] at hlt
      omega
    rw [List.getElem?_eq_getElem (by simpa using hlt2)]
    rw [← he]
    simp [List.getElem_dropLast]

set_option maxRecDepth 100000 in
/-- C14 fails on the code: the line `line15` has 15 tab-separated fields and
its field 14 is `ACGT`, but the inner loop stores only the 14 fields that are
followed by a tab, so the read of `d[14]` is out of bounds and
`get_sequences` fails on a file with this line; with a 16th field after it,
field 14 is read. -/
theorem field_read_out_of_bounds :
    (tabFields line15.data).length = 15 ∧
      ((tabFields line15.data).map String.mk).get? 14 = some "ACGT" ∧
      (splitLoop (line15.length + 1) line15.data []).length = 14 ∧
      fieldOfLine line15 = none ∧
      get_sequences (some [line15]) [] = none ∧
      (tabFields line16.data).length = 16 ∧
      fieldOfLine line16 = some "ACGT" := by
  decide

/-- The single-pass replacement of the pair `(a, a)` on a run of `k` copies of
`a`. -/
theorem greedy_replicate (a L : Nat) (ha : a ≠ 0) :
    ∀ (n k : Nat), k ≤ n →
      greedy a a L (List.replicate k a) =
        List.replicate (k / 2) L ++ List.replicate (k % 2) a := by
  intro n
  induction n with
  | zero =>
    intro k hk
    have : k = 0 := by omega
    subst this
    rfl
  | succ n ih =>
    intro k hk
    match k, hk with
    | 0, _ => rfl
    | 1, _ => rfl
    | k + 2, hk =>
      have e1 : List.replicate (k + 2) a = a :: a :: List.replicate k a := rfl
      have e2 : (k + 2) / 2 = k / 2 + 1 := by omega
      have e3 : (k + 2) % 2 = k % 2 := by omega
      rw [e1, greedy_take a a L _ ha ha, ih k (by omega), e2, e3]
      rfl

/-- C16 (append-only records): for every alphabet and dataset, in every round
of a run of `main` that records a merge, the MergeList after the round is the
MergeList before it with one pair appended; the next id was not a key of the
TokenTable before the round; the TokenTable after the round is the table
before it with the one entry (next id, that pair) added, so every id present
before keeps its pair and every other key except the new id is still absent;
and the next id grows by one. -/
theorem append_only (al : Alphabet) (dataset : String) (n : Nat) (s s1 : State)
    (h : run n (init al dataset) = Outcome.cont s) (hr : round s = Outcome.cont s1) :
    ∃ rep, s1.merged = s.merged ++ [rep] ∧
      s.tokens.lookup s.L = none ∧
      s1.tokens = s.tokens ++ [(s.L, rep)] ∧
      s1.tokens.lookup s.L = some rep ∧
      (∀ k, k ≠ s.L → s1.tokens.lookup k = s.tokens.lookup k) ∧
      s1.L = s.L + 1 := by
  have h0 : IdsOk ((convert_to_vector al dataset).2.length + 1) (init al dataset) :=
    ⟨rfl, rfl, rfl⟩
  obtain ⟨hi, _⟩ := idsOk_run _ n (init al dataset) s h0 h
  have hfresh := idsOk_fresh _ s hi
  obtain ⟨rep, e1, e2, e3⟩ := round_cont_shape s s1 hr
  refine ⟨rep, e1, hfresh, ?_, ?_, ?_, e2⟩
  · rw [e3, assign_fresh _ _ _ hfresh]
  · rw [e3, lookup_assign_fresh _ _ _ _ hfresh, if_pos rfl]
  · intro k hk
    rw [e3, lookup_assign_fresh _ _ _ _ hfresh, if_neg hk]

set_option maxRecDepth 100000 in
theorem append_only_witness :
    ∃ rep, afterAAA2.merged = afterAAA1.merged ++ [rep] ∧
      afterAAA1.tokens.lookup afterAAA1.L = none ∧
      afterAAA2.tokens = afterAAA1.tokens ++ [(afterAAA1.L, rep)] ∧
      afterAAA2.tokens.lookup afterAAA1.L = some rep ∧
      (∀ k, k ≠ afterAAA1.L → afterAAA2.tokens.lookup k = afterAAA1.tokens.lookup k) ∧
      afterAAA2.L = afterAAA1.L + 1 :=
  append_only alphabet "AAA~AAA" 1 afterAAA1 afterAAA2 (by decide) (by decide)

/-! ## Rounds that find no pair, continued -/

theorem pairCount_pos (seq : List Nat) (p x y : Nat) (hp : p < seq.length - 1)
    (hx : seq.getD p 0 = x) (hy : seq.getD (p + 1) 0 = y) (x0 : x ≠ 0) (y0 : y ≠ 0) :
    0 < pairCount seq x y := by
  unfold pairCount
  apply List.length_pos_of_mem (a := p)
  rw [List.mem_filter, List.mem_range, decide_eq_true_eq]
  exact ⟨hp, hx, hy, x0, y0⟩

theorem getD_mem (seq : List Nat) (p : Nat) (hp : p < seq.length) : seq.getD p 0 ∈ seq := by
  rw [List.getD_eq_getElem?_getD, List.getElem?_eq_getElem hp]
  exact List.getElem_mem hp

/-- When no visited cell of the table of pair counts is positive, no two
adjacent entries of the sequence are both non-zero. -/
theorem noPair_of_counts (seq : List Nat) (L : Nat) (hL : ∀ x ∈ seq, x < L)
    (h : ∀ i j, 1 ≤ i → i < L → 1 ≤ j → j < L → pairCount seq i j = 0) : NoPair seq := by
  intro p hp
  by_contra hc
  rw [not_or] at hc
  have hx := hL _ (getD_mem seq p (by omega))
  have hy := hL _ (getD_mem seq (p + 1) (by omega))
  have := pairCount_pos seq p _ _ hp rfl rfl hc.1 hc.2
  rw [h _ _ (Nat.pos_of_ne_zero hc.1) hx (Nat.pos_of_ne_zero hc.2) hy] at this
  exact lt_irrefl 0 this

theorem stuck_maxCount (s : State) (h : Stuck s) : maxCount s = some 0 := by
  obtain ⟨hne, hn, hL, hl, hp⟩ := h
  obtain ⟨c, ec, sq, hc⟩ := count_spec s.seq s.L (List.length_pos.2 hne) hn hL
  obtain ⟨_, _, s3⟩ := select_spec c
  unfold maxCount
  rw [ec, Option.map_some']
  rcases Nat.eq_zero_or_pos (select c).1 with h | h
  · rw [h]
  · obtain ⟨_, e, _⟩ := s3 h
    rw [hc, pairCount_zero_of_noPair s.seq hp] at e
    rw [← e]

/-- From a stuck state every number of rounds leads to a stuck state on the
same sequence. -/
theorem stuck_run_stuck : ∀ (n : Nat) (s : State), Stuck s →
    ∃ s1, run n s = Outcome.cont s1 ∧ Stuck s1 ∧ s1.seq = s.seq ∧ s1.L = s.L + n := by
  intro n
  induction n with
  | zero =>
    intro s h
    exact ⟨s, rfl, h, rfl, rfl⟩
  | succ n ih =>
    intro s h
    obtain ⟨tr1, _, er⟩ := stuck_round s h
    have hs := (stuck_next s _ h er).1
    obtain ⟨s2, r1, r2, r3, r4⟩ := ih _ hs
    unfold run
    rw [er]
    refine ⟨s2, r1, r2, r3, ?_⟩
    rw [r4]
    show s.L + 1 + n = s.L + (n + 1)
    omega

/-- In a state that satisfies the invariant, on a non-empty sequence, the
round finds `max_count = 0` exactly when no two adjacent entries are both
non-zero. -/
theorem maxCount_zero_iff (seq0 : List Nat) (L0 : Nat) (h64 : seq0.length < 2 ^ 64) (s : State)
    (hi : Inv seq0 L0 s) (hne : s.seq ≠ []) : maxCount s = some 0 ↔ NoPair s.seq := by
  have hst : NoPair s.seq → Stuck s := fun hp =>
    ⟨hne, lt_of_le_of_lt hi.len_le h64, hi.lt_L, by rw [hi.tr_len]; exact hi.len_le, hp⟩
  constructor
  · intro hz
    obtain ⟨c, _, e1, _, sq, hc, _, _⟩ := round_inv seq0 L0 h64 s hi hne
    rw [e1] at hz
    have hz0 : (select c).1 = 0 := Option.some.inj hz
    obtain ⟨s1, _, _⟩ := select_spec c
    apply noPair_of_counts s.seq s.L hi.lt_L
    intro i j i1 i2 j1 j2
    have hs : Scanned c i j := ⟨i1, by rw [sq.1]; exact i2, j1, by rw [sq.2 i i2]; exact j2⟩
    have := s1 i j hs
    rw [hz0, hc] at this
    omega
  · intro hp
    exact stuck_maxCount s (hst hp)

/-- C17 (a zero-count round is a stuck state): in a run of `main` on a
dataset, a round on a non-empty working sequence finds maximum pair count 0
exactly when no two adjacent entries are both non-zero, as for every sequence
of length 1; such a round does not break, appends `(0, 0)` to the MergeList,
adds the entry (next id, `(0, 0)`) to the TokenTable, leaves the working
sequence unchanged and increments the next id; after any number of further
rounds the loop is still running on the same sequence, the round again finds
maximum count 0, and `break` is never reached. -/
theorem zero_count_stuck (dataset : String) (h64 : dataset.length < 2 ^ 64) (n : Nat)
    (s : State) (h : run n (init alphabet dataset) = Outcome.cont s)
    (hz : maxCount s = some 0) :
    (maxCount s = some 0 ↔ NoPair s.seq) ∧
      (∀ t : State, t.seq.length = 1 → NoPair t.seq) ∧
      (∃ s1, round s = Outcome.cont s1 ∧ s1.merged = s.merged ++ [(0, 0)] ∧
        s1.tokens = s.tokens ++ [(s.L, (0, 0))] ∧ s1.tokens.lookup s.L = some (0, 0) ∧
        s1.seq = s.seq ∧ s1.L = s.L + 1) ∧
      (∀ m, ∃ s2, run m s = Outcome.cont s2 ∧ s2.seq = s.seq ∧ s2.L = s.L + m ∧
        maxCount s2 = some 0) ∧
      ∀ m s2, run m s ≠ Outcome.brk s2 := by
  have hi := inv_main dataset h64 n s (Or.inl h)
  have hne := maxCount_ne_nil s 0 hz
  have h64s : (convert_to_vector alphabet dataset).1.length < 2 ^ 64 := by
    rw [(convert_alphabet dataset).2.1]
    exact h64
  have hiff := maxCount_zero_iff _ _ h64s s hi hne
  have hst : Stuck s :=
    ⟨hne, lt_of_le_of_lt hi.len_le h64s, hi.lt_L, by rw [hi.tr_len]; exact hi.len_le,
      hiff.1 hz⟩
  have hfresh := hi.tok.2.1 s.L (le_refl _)
  refine ⟨hiff, ?_, ?_, ?_, ?_⟩
  · intro t ht p hp
    omega
  · obtain ⟨tr1, _, er⟩ := stuck_round s hst
    refine ⟨_, er, rfl, assign_fresh _ _ _ hfresh, ?_, rfl, rfl⟩
    show (assign s.tokens s.L (0, 0)).lookup s.L = some (0, 0)
    rw [lookup_assign_fresh _ _ _ _ hfresh, if_pos rfl]
  · intro m
    obtain ⟨s2, r1, r2, r3, r4⟩ := stuck_run_stuck m s hst
    exact ⟨s2, r1, r3, r4, stuck_maxCount s2 r2⟩
  · intro m s2
    exact (stuck_run m s hst).2 s2

set_option maxRecDepth 100000 in
theorem zero_count_stuck_witness :
    (maxCount afterAA = some 0 ↔ NoPair afterAA.seq) ∧
      (∀ t : State, t.seq.length = 1 → NoPair t.seq) ∧
      (∃ s1, round afterAA = Outcome.cont s1 ∧ s1.merged = afterAA.merged ++ [(0, 0)] ∧
        s1.tokens = afterAA.tokens ++ [(afterAA.L, (0, 0))] ∧
        s1.tokens.lookup afterAA.L = some (0, 0) ∧
        s1.seq = afterAA.seq ∧ s1.L = afterAA.L + 1) ∧
      (∀ m, ∃ s2, run m afterAA = Outcome.cont s2 ∧ s2.seq = afterAA.seq ∧
        s2.L = afterAA.L + m ∧ maxCount s2 = some 0) ∧
      ∀ m s2, run m afterAA ≠ Outcome.brk s2 :=
  zero_count_stuck "AA~AA" (by decide) 1 afterAA (by decide) (by decide)

/-- C18 (index safety): in a run of `main` on a non-empty dataset, at the start
of every round every entry of the working sequence is below `L`, the working
sequence is not empty and not longer than the dataset, and `to_replace` has
the length of the dataset; the counting loop, and the marking and replace
loops for any pair, make no out-of-bounds access, and the round does not
fail. -/
theorem index_safety (dataset : String) (hne : dataset ≠ "") (h64 : dataset.length < 2 ^ 64)
    (n : Nat) (s : State) (h : run n (init alphabet dataset) = Outcome.cont s) :
    (∀ x ∈ s.seq, x < s.L) ∧
      s.seq ≠ [] ∧
      s.seq.length ≤ dataset.length ∧
      s.to_replace.length = dataset.length ∧
      (∃ c, countLoop s.seq (loopBound s.seq.length) (loopBound s.seq.length) 0
        (mkTable s.L) = some c) ∧
      (∀ rep : kmer, ∃ r, rewritePass s.seq rep s.L s.to_replace = some r) ∧
      round s ≠ Outcome.fault := by
  obtain ⟨hi, hs⟩ := inv_main_ne dataset hne h64 n s (Or.inl h)
  have hlen := (convert_alphabet dataset).2.1
  have h64s : (convert_to_vector alphabet dataset).1.length < 2 ^ 64 := by
    rw [hlen]
    exact h64
  have h0 : 0 < s.seq.length := List.length_pos.2 hs
  have hn : s.seq.length < 2 ^ 64 := lt_of_le_of_lt hi.len_le h64s
  have hl : s.seq.length ≤ s.to_replace.length := by rw [hi.tr_len]; exact hi.len_le
  refine ⟨hi.lt_L, hs, ?_, ?_, ?_, ?_, ?_⟩
  · rw [← hlen]
    exact hi.len_le
  · rw [← hlen]
    exact hi.tr_len
  · obtain ⟨c, ec, _, _⟩ := count_spec s.seq s.L h0 hn hi.lt_L
    exact ⟨c, ec⟩
  · intro rep
    obtain ⟨tr1, e, _⟩ := rewrite_eq_greedy s.seq rep.1 rep.2 s.L s.to_replace h0 hn hl
    exact ⟨_, e⟩
  · obtain ⟨c, tr1, _, _, _, _, _, er⟩ := round_inv _ _ h64s s hi hs
    rw [er]
    by_cases h1 : (select c).1 = 1
    · rw [if_pos h1]
      exact fun e => Outcome.noConfusion e
    · rw [if_neg h1]
      exact fun e => Outcome.noConfusion e

set_option maxRecDepth 100000 in
theorem index_safety_witness :
    (∀ x ∈ afterAAA1.seq, x < afterAAA1.L) ∧
      afterAAA1.seq ≠ [] ∧
      afterAAA1.seq.length ≤ "AAA~AAA".length ∧
      afterAAA1.to_replace.length = "AAA~AAA".length ∧
      (∃ c, countLoop afterAAA1.seq (loopBound afterAAA1.seq.length)
        (loopBound afterAAA1.seq.length) 0 (mkTable afterAAA1.L) = some c) ∧
      (∀ rep : kmer, ∃ r, rewritePass afterAAA1.seq rep afterAAA1.L afterAAA1.to_replace =
        some r) ∧
      round afterAAA1 ≠ Outcome.fault :=
  index_safety "AAA~AAA" (by decide) (by decide) 1 afterAAA1 (by decide)

/-! ## Pair counts along the sequence -/

theorem pairCount_cons (x : Nat) (l : List Nat) (i j : Nat) :
    pairCount (x :: l) i j = adjHead x l i j + pairCount l i j := by
  cases l with
  | nil => rfl
  | cons y rest =>
    unfold pairCount adjHead adj
    have e1 : (x :: y :: rest).length - 1 = (y :: rest).length - 1 + 1 := by simp
    have hf : (fun p => decide ((x :: y :: rest).getD p 0 = i ∧
          (x :: y :: rest).getD (p + 1) 0 = j ∧ i ≠ 0 ∧ j ≠ 0)) ∘ Nat.succ =
        fun p => decide ((y :: rest).getD p 0 = i ∧ (y :: rest).getD (p + 1) 0 = j ∧
          i ≠ 0 ∧ j ≠ 0) := by
      funext p
      simp only [Function.comp, Nat.succ_eq_add_one, List.getD_cons_succ]
    rw [e1, List.range_succ_eq_map]
    by_cases hc : x = i ∧ y = j ∧ i ≠ 0 ∧ j ≠ 0
    · rw [List.filter_cons_of_pos (by rw [decide_eq_true_eq]; exact hc), List.length_cons,
        List.filter_map, List.length_map, hf]
      simp only
      rw [if_pos hc]
      omega
    · rw [List.filter_cons_of_neg (by rw [decide_eq_true_eq]; exact hc),
        List.filter_map, List.length_map, hf]
      simp only
      rw [if_neg hc]
      omega

theorem pairCount_nil (i j : Nat) : pairCount [] i j = 0 := rfl

theorem pairCount_le_cons (x : Nat) (l : List Nat) (i j : Nat) :
    pairCount l i j ≤ pairCount (x :: l) i j := by
  rw [pairCount_cons]
  omega

theorem adj_le_one (x y i j : Nat) : adj x y i j ≤ 1 := by
  unfold adj
  split <;> omega

theorem adj_eq_zero_left (x y i j : Nat) (h : x ≠ i) : adj x y i j = 0 := by
  unfold adj
  rw [if_neg (fun hc => h hc.1)]

theorem adj_eq_zero_right (x y i j : Nat) (h : y ≠ j) : adj x y i j = 0 := by
  unfold adj
  rw [if_neg (fun hc => h hc.2.1)]

/-- The first value of the replacement of `y :: rest` is `y` or the new id. -/
theorem greedy_head (a b L y : Nat) (rest : List Nat) :
    ∃ g, greedy a b L (y :: rest) = y :: g ∨ greedy a b L (y :: rest) = L :: g := by
  cases rest with
  | nil => exact ⟨[], Or.inl rfl⟩
  | cons z rest =>
    by_cases hc : y = a ∧ z = b ∧ y ≠ 0 ∧ z ≠ 0
    · exact ⟨_, Or.inr (by rw [greedy, if_pos hc])⟩
    · exact ⟨_, Or.inl (by rw [greedy, if_neg hc])⟩

/-- After the replacement the selected pair is nowhere adjacent. -/
theorem pairCount_greedy_self (a b L : Nat) (ha : a ≠ L) (hb : b ≠ L) (l : List Nat) :
    pairCount (greedy a b L l) a b = 0 := by
  induction l using greedy_induct a b with
  | h0 => rfl
  | h1 x => rfl
  | h2 x y rest hc ih =>
    rw [greedy, if_pos hc, pairCount_cons, ih]
    cases hg : greedy a b L rest with
    | nil => rfl
    | cons z g =>
      show adj L z a b + 0 = 0
      rw [adj_eq_zero_left _ _ _ _ (Ne.symm ha)]
  | h3 x y rest hc ih =>
    rw [greedy, if_neg hc, pairCount_cons, ih]
    obtain ⟨g, hg | hg⟩ := greedy_head a b L y rest
    · rw [hg]
      show adj x y a b + 0 = 0
      unfold adj
      rw [if_neg]
      rintro ⟨e1, e2, n1, n2⟩
      exact hc ⟨e1, e2, e1 ▸ n1, e2 ▸ n2⟩
    · rw [hg]
      show adj x L a b + 0 = 0
      rw [adj_eq_zero_right _ _ _ _ (Ne.symm hb)]

/-- The replacement does not raise the count of a pair of old ids. -/
theorem pairCount_greedy_le (a b L u v : Nat) (hu : u ≠ L) (hv : v ≠ L) (l : List Nat) :
    pairCount (greedy a b L l) u v ≤ pairCount l u v := by
  induction l using greedy_induct a b with
  | h0 => exact le_refl _
  | h1 x => exact le_refl _
  | h2 x y rest hc ih =>
    rw [greedy, if_pos hc, pairCount_cons]
    have h1 := pairCount_le_cons y rest u v
    have h2 := pairCount_le_cons x (y :: rest) u v
    have h0 : adjHead L (greedy a b L rest) u v = 0 := by
      cases hg : greedy a b L rest with
      | nil => rfl
      | cons z g => exact adj_eq_zero_left _ _ _ _ (Ne.symm hu)
    omega
  | h3 x y rest hc ih =>
    rw [greedy, if_neg hc, pairCount_cons, pairCount_cons x (y :: rest)]
    have h0 : adjHead x (greedy a b L (y :: rest)) u v ≤ adjHead x (y :: rest) u v := by
      obtain ⟨g, hg | hg⟩ := greedy_head a b L y rest
      · rw [hg]
        exact le_refl _
      · rw [hg]
        show adj x L u v ≤ _
        rw [adj_eq_zero_right _ _ _ _ (Ne.symm hv)]
        exact Nat.zero_le _
    omega

/-- The new id is emitted at most as often as the selected pair was counted. -/
theorem count_greedy_le (a b L : Nat) (l : List Nat) (hL : L ∉ l) :
    (greedy a b L l).count L ≤ pairCount l a b := by
  induction l using greedy_induct a b with
  | h0 => exact le_refl _
  | h1 x =>
    have : x ≠ L := fun e => hL (by simp [e])
    rw [greedy, List.count_cons_of_ne this.symm]
    exact Nat.zero_le _
  | h2 x y rest hc ih =>
    have := ih (fun hm => hL (by simp [hm]))
    have h1 := pairCount_le_cons y rest a b
    rw [greedy, if_pos hc, List.count_cons_self, pairCount_cons]
    have h0 : adjHead x (y :: rest) a b = 1 := by
      show adj x y a b = 1
      unfold adj
      rw [if_pos ⟨hc.1, hc.2.1, hc.1 ▸ hc.2.2.1, hc.2.1 ▸ hc.2.2.2⟩]
    omega
  | h3 x y rest hc ih =>
    have hx : x ≠ L := fun e => hL (by simp [e])
    have := ih (fun hm => hL (List.mem_cons_of_mem _ hm))
    have h2 := pairCount_le_cons x (y :: rest) a b
    rw [greedy, if_neg hc, List.count_cons_of_ne hx.symm]
    omega

theorem pairCount_le_count_left (u v : Nat) (l : List Nat) : pairCount l u v ≤ l.count u := by
  induction l with
  | nil => exact le_refl _
  | cons x l ih =>
    rw [pairCount_cons, List.count_cons]
    have : adjHead x l u v ≤ if (x == u) = true then 1 else 0 := by
      cases l with
      | nil => exact Nat.zero_le _
      | cons y rest =>
        show adj x y u v ≤ _
        by_cases hx : x = u
        · subst hx
          have := adj_le_one x y x v
          simpa using this
        · rw [adj_eq_zero_left _ _ _ _ hx]
          exact Nat.zero_le _
    omega

theorem pairCount_le_count_tail (u v : Nat) (l : List Nat) :
    pairCount l u v ≤ l.tail.count v := by
  induction l with
  | nil => exact le_refl _
  | cons x l ih =>
    rw [pairCount_cons, List.tail_cons]
    cases l with
    | nil => exact le_refl _
    | cons y rest =>
      rw [List.tail_cons] at ih
      rw [List.count_cons]
      have : adjHead x (y :: rest) u v ≤ if (y == v) = true then 1 else 0 := by
        show adj x y u v ≤ _
        by_cases hy : y = v
        · subst hy
          have := adj_le_one x y u y
          simpa using this
        · rw [adj_eq_zero_right _ _ _ _ hy]
          exact Nat.zero_le _
      omega

theorem pairCount_le_count_right (u v : Nat) (l : List Nat) : pairCount l u v ≤ l.count v := by
  have h1 := pairCount_le_count_tail u v l
  have h2 : l.tail.count v ≤ l.count v := by
    cases l with
    | nil => exact le_refl _
    | cons x l =>
      rw [List.tail_cons, List.count_cons]
      omega
  omega

/-! ## Consecutive rounds -/

/-- A round that falls through, from a state that satisfies the invariant:
what it counted and selected, and the state it leaves. -/
theorem round_cont_inv (seq0 : List Nat) (L0 : Nat) (h64 : seq0.length < 2 ^ 64)
    (hL0 : 0 < L0) (s s1 : State) (hi : Inv seq0 L0 s) (hr : round s = Outcome.cont s1) :
    s.seq ≠ [] ∧ Inv seq0 L0 s1 ∧ s1.seq ≠ [] ∧
      ∃ c, maxCount s = some (select c).1 ∧ selected s = some (select c).2 ∧
        Square c s.L ∧ (∀ i j, cell c i j = pairCount s.seq i j) ∧
        s1.seq = greedy (select c).2.1 (select c).2.2 s.L s.seq ∧
        s1.merged = s.merged ++ [(select c).2] ∧
        s1.L = s.L + 1 := by
  obtain ⟨hne, _⟩ := round_cont_spec s s1 (lt_of_le_of_lt hi.len_le h64) hi.lt_L
    (by rw [hi.tr_len]; exact hi.len_le) hr
  obtain ⟨c, tr1, e1, e2, sq, hc, _, er⟩ := round_inv seq0 L0 h64 s hi hne
  have hi1 := inv_step seq0 L0 h64 hL0 s s1 hi hr
  rw [er] at hr
  by_cases h1 : (select c).1 = 1
  · rw [if_pos h1] at hr
    exact Outcome.noConfusion hr
  · rw [if_neg h1] at hr
    have e := Outcome.cont.inj hr
    subst e
    exact ⟨hne, hi1, greedy_ne_nil _ _ _ _ hne, c, e1, e2, sq, hc, rfl, rfl, rfl⟩

/-- The pair selected by a round with a positive maximum count has non-zero
ids below `L` and is counted `max_count` times. -/
theorem selected_pos (c : Table) (L : Nat) (sq : Square c L) (h : 0 < (select c).1) :
    1 ≤ (select c).2.1 ∧ (select c).2.1 < L ∧ 1 ≤ (select c).2.2 ∧ (select c).2.2 < L ∧
      cell c (select c).2.1 (select c).2.2 = (select c).1 := by
  obtain ⟨_, _, s3⟩ := select_spec c
  obtain ⟨⟨a1, a2, a3, a4⟩, e, _⟩ := s3 h
  rw [sq.1] at a2
  rw [sq.2 _ a2] at a4
  exact ⟨a1, a2, a3, a4, e⟩

/-- Once the count of a pair of ids below `L` is 0 it stays 0 in every later
round. -/
theorem pairCount_zero_run (seq0 : List Nat) (L0 : Nat) (h64 : seq0.length < 2 ^ 64)
    (hL0 : 0 < L0) (a b : Nat) (k : Nat) (s1 s2 : State)
    (hi : Inv seq0 L0 s1) (ha : a < s1.L) (hb : b < s1.L) (hz : pairCount s1.seq a b = 0)
    (h : run k s1 = Outcome.cont s2 ∨ run k s1 = Outcome.brk s2) :
    Inv seq0 L0 s2 ∧ a < s2.L ∧ b < s2.L ∧ pairCount s2.seq a b = 0 := by
  refine run_induct
    (fun t => Inv seq0 L0 t ∧ a < t.L ∧ b < t.L ∧ pairCount t.seq a b = 0) ?_ k s1 s2
    ⟨hi, ha, hb, hz⟩ h
  intro t t1 hp hr
  obtain ⟨pi, pa, pb, pz⟩ := hp
  obtain ⟨_, hi1, _, c, _, _, _, _, e1, _, e3⟩ := round_cont_inv seq0 L0 h64 hL0 t t1 pi hr
  refine ⟨hi1, by omega, by omega, ?_⟩
  have := pairCount_greedy_le (select c).2.1 (select c).2.2 t.L a b (by omega) (by omega) t.seq
  rw [e1]
  omega

/-- C19 (no pair is merged twice): in a run of `main` on a dataset, after a
round that selected the pair `(a, b)` with a count of at least 1, the
rewritten sequence has no adjacent occurrence of `(a, b)`; the count of
`(a, b)` is 0 in the sequence of every later round; and every later round with
a maximum count of at least 1 selects, and appends to the MergeList, a pair
different from `(a, b)`. -/
theorem merged_pair_gone (dataset : String) (h64 : dataset.length < 2 ^ 64) (n : Nat)
    (s s1 : State) (a b m : Nat)
    (h : run n (init alphabet dataset) = Outcome.cont s) (hr : round s = Outcome.cont s1)
    (hm : maxCount s = some m) (h1 : 1 ≤ m) (hsel : selected s = some (a, b)) :
    s1.merged = s.merged ++ [(a, b)] ∧
      pairCount s1.seq a b = 0 ∧
      (∀ p, p + 1 < s1.seq.length →
        ¬ (s1.seq.getD p 0 = a ∧ s1.seq.getD (p + 1) 0 = b)) ∧
      (∀ k s2, (run k s1 = Outcome.cont s2 ∨ run k s1 = Outcome.brk s2) →
        pairCount s2.seq a b = 0) ∧
      ∀ k s2 s3 m2, run k s1 = Outcome.cont s2 → round s2 = Outcome.cont s3 →
        maxCount s2 = some m2 → 1 ≤ m2 →
        selected s2 ≠ some (a, b) ∧
          ∃ rep2, s3.merged = s2.merged ++ [rep2] ∧ rep2 ≠ (a, b) := by
  have hi := inv_main dataset h64 n s (Or.inl h)
  have h64s : (convert_to_vector alphabet dataset).1.length < 2 ^ 64 := by
    rw [(convert_alphabet dataset).2.1]
    exact h64
  have hL0 : 0 < (convert_to_vector alphabet dataset).2.length + 1 := by omega
  obtain ⟨_, hi1, _, c, e1, e2, sq, hc, es, em, eL⟩ :=
    round_cont_inv _ _ h64s hL0 s s1 hi hr
  rw [e1] at hm
  rw [e2] at hsel
  have hm' : (select c).1 = m := Option.some.inj hm
  have hsel' : (select c).2 = (a, b) := Option.some.inj hsel
  obtain ⟨a1, a2, b1, b2, _⟩ := selected_pos c s.L sq (by omega)
  rw [hsel'] at a1 a2 b1 b2 es em
  simp only at a1 a2 b1 b2 es
  have hz : pairCount s1.seq a b = 0 := by
    rw [es]
    exact pairCount_greedy_self a b s.L (by omega) (by omega) s.seq
  refine ⟨em, hz, ?_, ?_, ?_⟩
  · intro p hp hc2
    have := pairCount_pos s1.seq p a b (by omega) hc2.1 hc2.2 (by omega) (by omega)
    omega
  · intro k s2 hk
    exact (pairCount_zero_run _ _ h64s hL0 a b k s1 s2 hi1 (by omega) (by omega) hz hk).2.2.2
  · intro k s2 s3 m2 hk hr2 hm2 h2
    obtain ⟨hi2, _, _, hz2⟩ :=
      pairCount_zero_run _ _ h64s hL0 a b k s1 s2 hi1 (by omega) (by omega) hz (Or.inl hk)
    obtain ⟨_, _, _, c2, f1, f2, sq2, hc2, _, fm, _⟩ :=
      round_cont_inv _ _ h64s hL0 s2 s3 hi2 hr2
    rw [f1] at hm2
    have hm2' : (select c2).1 = m2 := Option.some.inj hm2
    obtain ⟨_, _, _, _, ecell⟩ := selected_pos c2 s2.L sq2 (by omega)
    have hne : (select c2).2 ≠ (a, b) := by
      intro e
      rw [e, hc2] at ecell
      simp only at ecell
      omega
    refine ⟨?_, (select c2).2, fm, hne⟩
    rw [f2]
    intro e
    exact hne (Option.some.inj e)

set_option maxRecDepth 100000 in
theorem merged_pair_gone_witness :
    afterAAA2.merged = afterAAA1.merged ++ [(7, 1)] ∧
      pairCount afterAAA2.seq 7 1 = 0 ∧
      (∀ p, p + 1 < afterAAA2.seq.length →
        ¬ (afterAAA2.seq.getD p 0 = 7 ∧ afterAAA2.seq.getD (p + 1) 0 = 1)) ∧
      (∀ k s2, (run k afterAAA2 = Outcome.cont s2 ∨ run k afterAAA2 = Outcome.brk s2) →
        pairCount s2.seq 7 1 = 0) ∧
      ∀ k s2 s3 m2, run k afterAAA2 = Outcome.cont s2 → round s2 = Outcome.cont s3 →
        maxCount s2 = some m2 → 1 ≤ m2 →
        selected s2 ≠ some (7, 1) ∧
          ∃ rep2, s3.merged = s2.merged ++ [rep2] ∧ rep2 ≠ (7, 1) :=
  merged_pair_gone "AAA~AAA" (by decide) 1 afterAAA1 afterAAA2 7 1 2
    (by decide) (by decide) (by decide) (by decide) (by decide)

/-- C20 (merge frequencies are non-increasing): in a run of `main` on a
dataset, for every round that falls through to a next round, the maximum pair
count found in the next round is at most the maximum pair count found in the
round. -/
theorem max_count_nonincreasing (dataset : String) (h64 : dataset.length < 2 ^ 64) (n : Nat)
    (s s1 : State) (h : run n (init alphabet dataset) = Outcome.cont s)
    (hr : round s = Outcome.cont s1) :
    ∃ m m1, maxCount s = some m ∧ maxCount s1 = some m1 ∧ m1 ≤ m := by
  have hi := inv_main dataset h64 n s (Or.inl h)
  have h64s : (convert_to_vector alphabet dataset).1.length < 2 ^ 64 := by
    rw [(convert_alphabet dataset).2.1]
    exact h64
  have hL0 : 0 < (convert_to_vector alphabet dataset).2.length + 1 := by omega
  obtain ⟨_, hi1, hne1, c, e1, _, sq, hc, es, _, eL⟩ :=
    round_cont_inv _ _ h64s hL0 s s1 hi hr
  obtain ⟨c1, _, f1, _, sq1, hc1, _, _⟩ := round_inv _ _ h64s s1 hi1 hne1
  refine ⟨(select c).1, (select c1).1, e1, f1, ?_⟩
  rcases Nat.eq_zero_or_pos (select c1).1 with z | pos
  · omega
  · obtain ⟨i1, i2, j1, j2, ecell⟩ := selected_pos c1 s1.L sq1 pos
    rw [hc1, eL] at *
    obtain ⟨t1, t2, _⟩ := select_spec c
    have hnotin : s.L ∉ s.seq := fun hm => lt_irrefl _ (hi.lt_L _ hm)
    -- the number of emissions of the new id is at most the old maximum
    have hemit : (s1.seq).count s.L ≤ (select c).1 := by
      rw [es]
      have h1 := count_greedy_le (select c).2.1 (select c).2.2 s.L s.seq hnotin
      rcases Nat.eq_zero_or_pos (select c).1 with z | p
      · rw [t2 z] at h1
        rw [pairCount_zero_left] at h1
        rw [t2 z]
        omega
      · obtain ⟨_, _, _, _, e⟩ := selected_pos c s.L sq p
        rw [hc] at e
        omega
    by_cases hi' : (select c1).2.1 = s.L
    · have := pairCount_le_count_left (select c1).2.1 (select c1).2.2 s1.seq
      rw [hi'] at this ecell
      omega
    · by_cases hj' : (select c1).2.2 = s.L
      · have := pairCount_le_count_right (select c1).2.1 (select c1).2.2 s1.seq
        rw [hj'] at this ecell
        omega
      · have hle := pairCount_greedy_le (select c).2.1 (select c).2.2 s.L
          (select c1).2.1 (select c1).2.2 hi' hj' s.seq
        rw [← es] at hle
        have hsc : Scanned c (select c1).2.1 (select c1).2.2 :=
          ⟨i1, by rw [sq.1]; omega, j1, by rw [sq.2 _ (by omega)]; omega⟩
        have := t1 _ _ hsc
        rw [hc] at this
        omega

set_option maxRecDepth 100000 in
theorem max_count_nonincreasing_witness :
    ∃ m m1, maxCount afterAAA1 = some m ∧ maxCount afterAAA2 = some m1 ∧ m1 ≤ m :=
  max_count_nonincreasing "AAA~AAA" (by decide) 1 afterAAA1 afterAAA2 (by decide) (by decide)

/-! ## Allocation of ids and the rewriter in a run of `main` -/

theorem length_eq_nonSentinel_add (al : Alphabet) :
    al.length = nonSentinel al + sentinels al := by
  unfold nonSentinel sentinels
  induction al with
  | nil => rfl
  | cons e al ih =>
    by_cases h : e.2 = 0
    · rw [List.filter_cons_of_neg (by rw [decide_eq_true_eq]; exact fun hn => hn h),
        List.filter_cons_of_pos (by rw [decide_eq_true_eq]; exact h)]
      simp only [List.length_cons]
      omega
    · rw [List.filter_cons_of_pos (by rw [decide_eq_true_eq]; exact h),
        List.filter_cons_of_neg (by rw [decide_eq_true_eq]; exact h)]
      simp only [List.length_cons]
      omega

/-- C2, as the code has it (id allocation): for every alphabet with exactly
one sentinel symbol and every dataset all of whose characters are keys of the
alphabet, with `K` the number of non-sentinel symbols, after `n` rounds that
did not reach `break` the MergeList has `n` entries and the TokenTable holds,
in the order of the merges, the ids `K + 2, ..., K + 1 + n`: the merge at
position `m` counted from 0, which is merge number `m + 1`, has id
`K + 2 + m` and the pair recorded in the MergeList at that position, and the
next id is `K + 2 + n`. -/
theorem mint_ids (al : Alphabet) (dataset : String) (n : Nat) (s : State)
    (hone : sentinels al = 1)
    (hkeys : ∀ ch ∈ dataset.data, al.lookup (String.singleton ch) ≠ none)
    (h : run n (init al dataset) = Outcome.cont s) :
    s.merged.length = n ∧
      s.L = nonSentinel al + 2 + n ∧
      s.tokens.map Prod.fst = List.range' (nonSentinel al + 2) n ∧
      s.tokens.map Prod.snd = s.merged ∧
      ∀ m, m < n → (s.tokens.map Prod.fst)[m]? = some (nonSentinel al + 2 + m) := by
  have hsize : (convert_to_vector al dataset).2.length + 1 = nonSentinel al + 2 := by
    rw [convert_keys_unchanged al dataset hkeys, length_eq_nonSentinel_add al, hone]
  have hr := ids_in_order al dataset n s h
  rw [hsize] at hr
  exact hr

set_option maxRecDepth 100000 in
theorem mint_ids_witness :
    scenarioRound1.merged.length = 1 ∧
      scenarioRound1.L = nonSentinel scenarioAlphabet + 2 + 1 ∧
      scenarioRound1.tokens.map Prod.fst = List.range' (nonSentinel scenarioAlphabet + 2) 1 ∧
      scenarioRound1.tokens.map Prod.snd = scenarioRound1.merged ∧
      ∀ m, m < 1 →
        (scenarioRound1.tokens.map Prod.fst)[m]? = some (nonSentinel scenarioAlphabet + 2 + m) :=
  mint_ids scenarioAlphabet "AAAA" 1 scenarioRound1 (by decide) (by decide) (by decide)

/-- C9 (SequenceRewriter equals greedy replacement): in every round of a run
of `main` on a dataset in which the counting loop has returned, so that the
marking and replace loops can follow it, for every pair `(a, b)` and every new
id `L` the two passes of the code on the working sequence of the round, with
the `to_replace` of the round, make no out-of-bounds access and produce the
sequence of the single-pass recursive definition; and a round that falls
through leaves that sequence for its selected pair and its `L`. -/
theorem rewriter_is_greedy (dataset : String) (h64 : dataset.length < 2 ^ 64) (n : Nat)
    (s : State) (m : Nat) (h : run n (init alphabet dataset) = Outcome.cont s)
    (hc : maxCount s = some m) :
    (∀ a b L, (rewritePass s.seq (a, b) L s.to_replace).map Prod.snd =
        some (greedy a b L s.seq)) ∧
      ∀ s1, round s = Outcome.cont s1 →
        ∃ a b, selected s = some (a, b) ∧ s1.seq = greedy a b s.L s.seq := by
  have hi := inv_main dataset h64 n s (Or.inl h)
  have hne := maxCount_ne_nil s m hc
  have h64s : (convert_to_vector alphabet dataset).1.length < 2 ^ 64 := by
    rw [(convert_alphabet dataset).2.1]
    exact h64
  have hL0 : 0 < (convert_to_vector alphabet dataset).2.length + 1 := by omega
  constructor
  · intro a b L
    obtain ⟨tr1, e, _⟩ := rewrite_eq_greedy s.seq a b L s.to_replace (List.length_pos.2 hne)
      (lt_of_le_of_lt hi.len_le h64s) (by rw [hi.tr_len]; exact hi.len_le)
    rw [e]
    rfl
  · intro s1 hr
    obtain ⟨_, _, _, c, _, e2, _, _, es, _, _⟩ := round_cont_inv _ _ h64s hL0 s s1 hi hr
    exact ⟨(select c).2.1, (select c).2.2, e2, es⟩

set_option maxRecDepth 100000 in
theorem rewriter_is_greedy_witness :
    (∀ a b L, (rewritePass afterAAA1.seq (a, b) L afterAAA1.to_replace).map Prod.snd =
        some (greedy a b L afterAAA1.seq)) ∧
      ∀ s1, round afterAAA1 = Outcome.cont s1 →
        ∃ a b, selected afterAAA1 = some (a, b) ∧ s1.seq = greedy a b afterAAA1.L afterAAA1.seq :=
  rewriter_is_greedy "AAA~AAA" (by decide) 1 afterAAA1 2 (by decide) (by decide)

/-- C15 (runs of one symbol): for every `k ≥ 0` and every non-zero symbol `a`,
the single-pass replacement of the pair `(a, a)` by any new id `L` on the
sequence of `k` copies of `a` is `k / 2` copies of `L` followed by `k mod 2`
copies of `a`; and in every round of a run of `main` on a dataset whose working
sequence is `k` copies of `a` and whose counting loop has returned, the two
passes of the code with the pair `(a, a)` and any new id `L` produce that
sequence, which is the working sequence the round leaves when it selected
`(a, a)`. -/
theorem rewrite_run (k a : Nat) (ha : a ≠ 0) :
    (∀ L, greedy a a L (List.replicate k a) =
        List.replicate (k / 2) L ++ List.replicate (k % 2) a) ∧
      ∀ (dataset : String) (n : Nat) (s : State) (m : Nat), dataset.length < 2 ^ 64 →
        run n (init alphabet dataset) = Outcome.cont s → maxCount s = some m →
        s.seq = List.replicate k a →
        (∀ L, (rewritePass s.seq (a, a) L s.to_replace).map Prod.snd =
          some (List.replicate (k / 2) L ++ List.replicate (k % 2) a)) ∧
        ∀ s1, round s = Outcome.cont s1 → selected s = some (a, a) →
          s1.seq = List.replicate (k / 2) s.L ++ List.replicate (k % 2) a := by
  have hg : ∀ L, greedy a a L (List.replicate k a) =
      List.replicate (k / 2) L ++ List.replicate (k % 2) a :=
    fun L => greedy_replicate a L ha k k (le_refl _)
  refine ⟨hg, ?_⟩
  intro dataset n s m h64 h hc hs
  have hi := inv_main dataset h64 n s (Or.inl h)
  have hne := maxCount_ne_nil s m hc
  have h64s : (convert_to_vector alphabet dataset).1.length < 2 ^ 64 := by
    rw [(convert_alphabet dataset).2.1]
    exact h64
  have hL0 : 0 < (convert_to_vector alphabet dataset).2.length + 1 := by omega
  constructor
  · intro L
    obtain ⟨tr1, e, _⟩ := rewrite_eq_greedy s.seq a a L s.to_replace (List.length_pos.2 hne)
      (lt_of_le_of_lt hi.len_le h64s) (by rw [hi.tr_len]; exact hi.len_le)
    rw [e, Option.map_some', hs, hg L]
  · intro s1 hr hsel
    obtain ⟨_, _, _, c, _, e2, _, _, es, _, _⟩ := round_cont_inv _ _ h64s hL0 s s1 hi hr
    rw [e2] at hsel
    have hrep : (select c).2 = (a, a) := Option.some.inj hsel
    rw [es, hrep, hs]
    exact hg s.L

set_option maxRecDepth 100000 in
theorem rewrite_run_witness :
    (∀ L, greedy 1 1 L (List.replicate 4 1) =
        List.replicate (4 / 2) L ++ List.replicate (4 % 2) 1) ∧
      ((∀ L, (rewritePass (init alphabet "AAAA").seq (1, 1) L
            (init alphabet "AAAA").to_replace).map Prod.snd =
          some (List.replicate (4 / 2) L ++ List.replicate (4 % 2) 1)) ∧
        ∀ s1, round (init alphabet "AAAA") = Outcome.cont s1 →
          selected (init alphabet "AAAA") = some (1, 1) →
          s1.seq = List.replicate (4 / 2) (init alphabet "AAAA").L ++
            List.replicate (4 % 2) 1) ∧
      maxCount (init alphabet "AAAA") = some 3 ∧
      selected (init alphabet "AAAA") = some (1, 1) ∧
      round (init alphabet "AAAA") = Outcome.cont afterAAAA ∧
      afterAAAA.seq = [7, 7] :=
  ⟨(rewrite_run 4 1 (by decide)).1,
    (rewrite_run 4 1 (by decide)).2 "AAAA" 0 (init alphabet "AAAA") 3 (by decide) rfl
      (by decide) (by decide),
    by decide, by decide, by decide, rfl⟩

end Bpe
